import Mathlib

/-!
# Verification of the command-execution core

Shallow embedding of the terminal's command-execution core: the simulated
filesystem (`filesystem/virtual_fs.py`), the file command set
(`commands/file_operations.py`), the natural-language interpreter
(`commands/ai_commands.py`), and the dispatcher (`terminal_core.py`).

Python strings are modelled as lists of characters (`Str`); Python dicts of
child nodes are modelled as association lists preserving insertion order,
with the dict's replace-in-place / append-at-end assignment semantics.
-/

set_option maxRecDepth 8000

/-- Python strings, modelled as lists of characters. -/
abbrev Str := List Char

/-- `s.split(sep)` for a single-character separator, as in Python:
`"".split('/') = [""]`, `"a//b".split('/') = ["a", "", "b"]`. -/
def splitOnChar (sep : Char) : Str → List Str
  | [] => [[]]
  | c :: cs =>
    if c = sep then [] :: splitOnChar sep cs
    else
      match splitOnChar sep cs with
      | [] => [[c]]
      | g :: gs => (c :: g) :: gs

/-- `sep.join(l)` for a single-character separator. -/
def joinWithChar (sep : Char) : List Str → Str
  | [] => []
  | [s] => s
  | s :: ss => s ++ sep :: joinWithChar sep ss

/-- `s.rstrip('/')` — drop trailing `/` characters. -/
def rstripSlash (s : Str) : Str :=
  (s.reverse.dropWhile (· = '/')).reverse

/-- `s.strip('/')` — drop leading and trailing `/` characters. -/
def stripSlash (s : Str) : Str :=
  rstripSlash (s.dropWhile (· = '/'))

/-- `os.path.join(a, b)` (POSIX, two arguments). -/
def osPathJoin (a b : Str) : Str :=
  if b.head? = some '/' then b
  else if a = [] then b
  else if a.getLast? = some '/' then a ++ b
  else a ++ '/' :: b

theorem splitOnChar_ne_nil (sep : Char) (s : Str) : splitOnChar sep s ≠ [] := by
  cases s with
  | nil => simp [splitOnChar]
  | cons c cs =>
    simp only [splitOnChar]
    by_cases hc : c = sep
    · simp [hc]
    · rw [if_neg hc]
      rcases splitOnChar sep cs with _ | ⟨g, gs⟩ <;> simp

theorem mem_splitOnChar_not_mem (sep : Char) (s : Str) :
    ∀ g ∈ splitOnChar sep s, sep ∉ g := by
  induction s with
  | nil => intro g hg; simp [splitOnChar] at hg; simp [hg]
  | cons c cs ih =>
    intro g hg
    simp only [splitOnChar] at hg
    by_cases hc : c = sep
    · rw [if_pos hc] at hg
      rcases List.mem_cons.mp hg with h | h
      · simp [h]
      · exact ih g h
    · rw [if_neg hc] at hg
      rcases hr : splitOnChar sep cs with _ | ⟨g0, gs⟩
      · rw [hr] at hg
        simp at hg; subst hg
        simp; exact fun h => hc h.symm
      · rw [hr] at hg
        rcases List.mem_cons.mp hg with h | h
        · subst h
          have h0 : sep ∉ g0 := ih g0 (by rw [hr]; simp)
          simp [h0]; exact fun h => hc h.symm
        · exact ih g (by rw [hr]; simp [h])

theorem splitOnChar_of_not_mem (sep : Char) (s : Str) (hs : sep ∉ s) :
    splitOnChar sep s = [s] := by
  induction s with
  | nil => simp [splitOnChar]
  | cons c cs ih =>
    have hc : ¬ c = sep := fun h => hs (by simp [h])
    simp only [splitOnChar, if_neg hc]
    rw [ih (fun hm => hs (by simp [hm]))]

theorem splitOnChar_append_sep (sep : Char) (s rest : Str) (hs : sep ∉ s) :
    splitOnChar sep (s ++ sep :: rest) = s :: splitOnChar sep rest := by
  induction s with
  | nil => simp [splitOnChar]
  | cons c cs ih =>
    have hc : ¬ c = sep := fun h => hs (by simp [h])
    simp only [List.cons_append, splitOnChar, if_neg hc, List.append_eq]
    rw [ih (fun hm => hs (by simp [hm]))]

/-- Splitting undoes joining when no element contains the separator. -/
theorem splitOnChar_joinWithChar (sep : Char) (l : List Str) (hl : l ≠ [])
    (h : ∀ s ∈ l, sep ∉ s) :
    splitOnChar sep (joinWithChar sep l) = l := by
  induction l with
  | nil => exact absurd rfl hl
  | cons s ss ih =>
    cases ss with
    | nil => simpa [joinWithChar] using splitOnChar_of_not_mem sep s (h s (by simp))
    | cons t ts =>
      simp only [joinWithChar]
      rw [splitOnChar_append_sep sep s _ (h s (by simp)),
        ih (by simp) (fun q hq => h q (by simp [hq]))]

namespace VirtualFileSystem

/-- One step of the segment-collapsing loop in
`VirtualFileSystem.normalize_path`: skip `''` and `'.'`, pop on `'..'`
(clamped at the root), append any other segment. -/
def normStep (parts : List Str) (part : Str) : List Str :=
  if part = [] ∨ part = ['.'] then parts
  else if part = ['.', '.'] then
    if parts ≠ [] ∧ parts.getLast? ≠ some ['.', '.'] then parts.dropLast else parts
  else parts ++ [part]

/-- The collapsed segment list of a path (the `parts` accumulator of
`normalize_path` after its loop). -/
def normParts (path : Str) : List Str :=
  (splitOnChar '/' path).foldl normStep []

/-- The final `result = '/' + '/'.join(parts)` computation of
`normalize_path`, including its conditional with the (dead) `rstrip('/')`
branch, reproduced verbatim. -/
def rebuild (parts : List Str) : Str :=
  if ('/' :: joinWithChar '/' parts : Str) ≠ ['/'] ∨ parts.length = 0 then
    '/' :: joinWithChar '/' parts
  else rstripSlash ('/' :: joinWithChar '/' parts)

/-- `VirtualFileSystem.normalize_path` (`filesystem/virtual_fs.py`): resolve
a relative path against `cur`, collapse `.` and `..` segments, rebuild
`'/' + '/'.join(parts)`. -/
def normalize_path (cur path : Str) : Str :=
  rebuild (normParts (if path.head? = some '/' then path else osPathJoin cur path))

/-- A collapsed path segment: nonempty, not `.` or `..`, and free of `/`. -/
def GoodSeg (s : Str) : Prop :=
  s ≠ [] ∧ s ≠ ['.'] ∧ s ≠ ['.', '.'] ∧ '/' ∉ s

theorem normStep_good (acc : List Str) (p : Str)
    (hacc : ∀ s ∈ acc, GoodSeg s) (hp : '/' ∉ p) :
    ∀ s ∈ normStep acc p, GoodSeg s := by
  intro s hs
  unfold normStep at hs
  by_cases h1 : p = [] ∨ p = ['.']
  · simp only [if_pos h1] at hs; exact hacc s hs
  · by_cases h2 : p = ['.', '.']
    · simp only [if_neg h1, if_pos h2] at hs
      by_cases h3 : acc ≠ [] ∧ acc.getLast? ≠ some ['.', '.']
      · simp only [if_pos h3] at hs
        exact hacc s (List.mem_of_mem_dropLast hs)
      · simp only [if_neg h3] at hs
        exact hacc s hs
    · simp only [if_neg h1, if_neg h2, List.mem_append, List.mem_singleton] at hs
      rcases hs with h | h
      · exact hacc s h
      · subst h
        push_neg at h1
        exact ⟨h1.1, h1.2, h2, hp⟩

theorem foldl_normStep_good (l : List Str) (acc : List Str)
    (hl : ∀ p ∈ l, '/' ∉ p) (hacc : ∀ s ∈ acc, GoodSeg s) :
    ∀ s ∈ l.foldl normStep acc, GoodSeg s := by
  induction l generalizing acc with
  | nil => simpa using hacc
  | cons p ps ih =>
    simp only [List.foldl_cons]
    exact ih _ (fun q hq => hl q (by simp [hq]))
      (normStep_good acc p hacc (hl p (by simp)))

theorem normParts_good (path : Str) : ∀ s ∈ normParts path, GoodSeg s :=
  foldl_normStep_good _ [] (mem_splitOnChar_not_mem '/' path) (by simp)

/-- `normStep` on an already-good segment just appends it. -/
theorem normStep_append (acc : List Str) (p : Str) (hp : GoodSeg p) :
    normStep acc p = acc ++ [p] := by
  unfold normStep
  rw [if_neg, if_neg hp.2.2.1]
  push_neg
  exact ⟨hp.1, hp.2.1⟩

/-- Folding over already-good segments reproduces them. -/
theorem foldl_normStep_of_good (l : List Str) (acc : List Str)
    (hl : ∀ p ∈ l, GoodSeg p) :
    l.foldl normStep acc = acc ++ l := by
  induction l generalizing acc with
  | nil => simp
  | cons p ps ih =>
    simp only [List.foldl_cons]
    rw [normStep_append acc p (hl p (by simp)),
      ih _ (fun q hq => hl q (by simp [hq]))]
    simp

theorem joinWithChar_ne_nil (sep : Char) (s : Str) (l : List Str)
    (hs : s ≠ []) : joinWithChar sep (s :: l) ≠ [] := by
  cases l with
  | nil => simpa [joinWithChar]
  | cons t ts =>
    simp only [joinWithChar]
    intro h
    exact hs (List.append_eq_nil.mp h).1

/-- The dead `rstrip` branch of `rebuild` is never taken on good segments. -/
theorem rebuild_eq (parts : List Str) (h : ∀ s ∈ parts, GoodSeg s) :
    rebuild parts = '/' :: joinWithChar '/' parts := by
  rcases parts with _ | ⟨s, ss⟩
  · simp [rebuild]
  · have hs : GoodSeg s := h s (by simp)
    have hne : ('/' :: joinWithChar '/' (s :: ss) : Str) ≠ ['/'] := fun hh =>
      joinWithChar_ne_nil '/' s ss hs.1 (List.cons_eq_cons.mp hh).2
    exact if_pos (Or.inl hne)

/-- The normalized path is `'/'` followed by the joined good segments. -/
theorem normalize_path_eq (cur path : Str) :
    normalize_path cur path =
      '/' :: joinWithChar '/'
        (normParts (if path.head? = some '/' then path else osPathJoin cur path)) := by
  unfold normalize_path
  exact rebuild_eq _ (normParts_good _)

/-- Re-collapsing a rebuilt path of good segments gives back the segments. -/
theorem normParts_rebuilt (parts : List Str) (h : ∀ s ∈ parts, GoodSeg s) :
    normParts ('/' :: joinWithChar '/' parts) = parts := by
  unfold normParts
  have hsplit : splitOnChar '/' ('/' :: joinWithChar '/' parts)
      = [] :: splitOnChar '/' (joinWithChar '/' parts) := by
    simp [splitOnChar]
  rw [hsplit]
  rcases parts with _ | ⟨s, ss⟩
  · decide
  · rw [splitOnChar_joinWithChar '/' (s :: ss) (by simp) (fun q hq => (h q hq).2.2.2)]
    simp only [List.foldl_cons]
    rw [show normStep [] [] = [] by simp [normStep]]
    rw [show normStep [] s = [] ++ [s] from normStep_append [] s (h s (by simp))]
    rw [foldl_normStep_of_good ss ([] ++ [s]) (fun q hq => h q (by simp [hq]))]
    simp

/-- The normalized path starts with `'/'`. -/
theorem normalize_path_head (cur p : Str) :
    (normalize_path cur p).head? = some '/' := by
  rw [normalize_path_eq]; rfl

theorem norm_parts_spec (cur p : Str) :
    normParts (normalize_path cur p)
      = normParts (if p.head? = some '/' then p else osPathJoin cur p) := by
  rw [normalize_path_eq]
  exact normParts_rebuilt _ (normParts_good _)

/-- **C4.** Path normalization is idempotent — `normalize(normalize(p)) =
normalize(p)` for every current directory and every path `p` — and a `..`
above the root is clamped: the result always starts at the root and
contains no residual `..` segment (normalization is total by construction),
e.g. `normalize("/tmp/../..") = "/"` and `normalize("/../../a") = "/a"`. -/
theorem c4_normalize_idempotent_clamped (cur p : Str) :
    normalize_path cur (normalize_path cur p) = normalize_path cur p ∧
    (normalize_path cur p).head? = some '/' ∧
    ['.', '.'] ∉ splitOnChar '/' (normalize_path cur p) ∧
    normalize_path "/home/user".data "/tmp/../..".data = "/".data ∧
    normalize_path "/home/user".data "/../../a".data = "/a".data := by
  refine ⟨?_, normalize_path_head cur p, ?_, by decide, by decide⟩
  · conv_lhs => rw [normalize_path]
    rw [if_pos (normalize_path_head cur p), norm_parts_spec,
      rebuild_eq _ (normParts_good _), ← normalize_path_eq]
  · rw [normalize_path_eq]
    have hsplit : splitOnChar '/' ('/' :: joinWithChar '/'
        (normParts (if p.head? = some '/' then p else osPathJoin cur p)))
        = [] :: splitOnChar '/' (joinWithChar '/'
            (normParts (if p.head? = some '/' then p else osPathJoin cur p))) := by
      simp [splitOnChar]
    rw [hsplit]
    set parts := normParts (if p.head? = some '/' then p else osPathJoin cur p)
      with hparts
    rcases hp : parts with _ | ⟨s, ss⟩
    · decide
    · rw [splitOnChar_joinWithChar '/' (s :: ss) (by simp)
        (fun q hq => ((normParts_good _ q (by rw [← hparts, hp]; exact hq)).2.2.2))]
      intro hmem
      rcases List.mem_cons.mp hmem with h | h
      · simp at h
      · exact (normParts_good _ _ (by rw [← hparts, hp]; exact h)).2.2.1 rfl

end VirtualFileSystem

/-- A node of the simulated filesystem: Python's dict-of-dicts tree, as a
tagged union.  File nodes carry `content`, `created`, `modified`,
`permissions`, `size`; directory nodes carry `created`, `modified`,
`permissions` and an insertion-ordered `children` mapping. -/
inductive FsNode where
  | file (content : Str) (created : Str) (modified : Str) (permissions : Str)
      (size : Nat)
  | dir (created : Str) (modified : Str) (permissions : Str)
      (children : List (Str × FsNode))

/-- Dict lookup `children[name]` / `name in children`. -/
def lookupChild : List (Str × FsNode) → Str → Option FsNode
  | [], _ => none
  | (k, v) :: rest, name => if k = name then some v else lookupChild rest name

/-- Dict assignment `children[name] = v`: replace in place if the key is
present, append at the end otherwise. -/
def setChild : List (Str × FsNode) → Str → FsNode → List (Str × FsNode)
  | [], name, v => [(name, v)]
  | (k, w) :: rest, name, v =>
    if k = name then (k, v) :: rest else (k, w) :: setChild rest name v

/-- Dict deletion `del children[name]`. -/
def delChild : List (Str × FsNode) → Str → List (Str × FsNode)
  | [], _ => []
  | (k, w) :: rest, name => if k = name then rest else (k, w) :: delChild rest name

/-- Dict update `children[name] = f(children[name])` when the key is
present (used to render in-place mutation of a child found by lookup). -/
def mapChild : List (Str × FsNode) → Str → (FsNode → FsNode) →
    List (Str × FsNode)
  | [], _, _ => []
  | (k, w) :: rest, name, f =>
    if k = name then (k, f w) :: rest else (k, w) :: mapChild rest name f

namespace FsNode

/-- `node.get('type') == 'directory'`. -/
def isDir : FsNode → Bool
  | dir .. => true
  | file .. => false

/-- `node.get('children', {})` (files have no `children` key). -/
def childrenOf : FsNode → List (Str × FsNode)
  | dir _ _ _ ch => ch
  | file .. => []

/-- `node['modified'] = now`. -/
def withModified : FsNode → Str → FsNode
  | file c cr _ pe sz, now => file c cr now pe sz
  | dir cr _ pe ch, now => dir cr now pe ch

/-- `copy['created'] = now; copy['modified'] = now` (top node of a copy). -/
def withStamps : FsNode → Str → FsNode
  | file c _ _ pe sz, now => file c now now pe sz
  | dir _ _ pe ch, now => dir now now pe ch

/-- `parent['children'][name] = child` on a directory node. -/
def withChildInserted : FsNode → Str → FsNode → FsNode
  | dir cr m pe ch, name, child => dir cr m pe (setChild ch name child)
  | n, _, _ => n

/-- `del parent['children'][name]` on a directory node. -/
def withChildDeleted : FsNode → Str → FsNode
  | dir cr m pe ch, name => dir cr m pe (delChild ch name)
  | n, _ => n

end FsNode

mutual

/-- Well-formedness: every directory's child names are pairwise distinct
(automatic for Python dicts, an invariant of the association-list model). -/
def FsNode.wf : FsNode → Bool
  | FsNode.file .. => true
  | FsNode.dir _ _ _ ch =>
    decide ((ch.map Prod.fst).Nodup) && FsNode.childrenWf ch

/-- All children are well-formed. -/
def FsNode.childrenWf : List (Str × FsNode) → Bool
  | [] => true
  | (_, n) :: rest => n.wf && FsNode.childrenWf rest

end

/-- Walk the tree along a list of path segments (the loop of `get_node`). -/
def getNodeParts : FsNode → List Str → Option FsNode
  | n, [] => some n
  | FsNode.dir _ _ _ ch, part :: rest =>
    match lookupChild ch part with
    | some child => getNodeParts child rest
    | none => none
  | FsNode.file .., _ :: _ => none

/-- Apply `f` to the node reached along `parts`, rebuilding the spine
(the functional rendering of Python's in-place mutation of a node found
by traversal; a missing path leaves the tree unchanged). -/
def updateAt (t : FsNode) : List Str → (FsNode → FsNode) → FsNode
  | [], f => f t
  | part :: rest, f =>
    match t with
    | FsNode.file .. => t
    | FsNode.dir cr m pe ch =>
      FsNode.dir cr m pe (mapChild ch part (fun child => updateAt child rest f))

theorem lookupChild_setChild_self (ch : List (Str × FsNode)) (name : Str)
    (v : FsNode) : lookupChild (setChild ch name v) name = some v := by
  induction ch with
  | nil => simp [setChild, lookupChild]
  | cons kv rest ih =>
    rcases kv with ⟨k, w⟩
    by_cases hk : k = name
    · simp only [setChild, if_pos hk, lookupChild, if_pos hk]
    · simp only [setChild, if_neg hk, lookupChild, if_neg hk, ih]

theorem lookupChild_setChild_other (ch : List (Str × FsNode))
    (name name' : Str) (v : FsNode) (h : name' ≠ name) :
    lookupChild (setChild ch name v) name' = lookupChild ch name' := by
  induction ch with
  | nil =>
    have hn : ¬ name = name' := fun hh => h hh.symm
    simp [setChild, lookupChild, hn]
  | cons kv rest ih =>
    rcases kv with ⟨k, w⟩
    by_cases hk : k = name
    · have hkn : ¬ k = name' := fun hh => h (hh.symm.trans hk)
      simp only [setChild, if_pos hk, lookupChild, if_neg hkn]
    · simp only [setChild, if_neg hk, lookupChild]
      by_cases hk' : k = name'
      · simp only [if_pos hk']
      · simp only [if_neg hk', ih]

theorem lookupChild_eq_none_of_not_mem (ch : List (Str × FsNode)) (name : Str)
    (h : name ∉ ch.map Prod.fst) : lookupChild ch name = none := by
  induction ch with
  | nil => simp [lookupChild]
  | cons kv rest ih =>
    rcases kv with ⟨k, w⟩
    have h1 : ¬ k = name := fun hh =>
      h (by simp only [List.map_cons, List.mem_cons]; exact Or.inl hh.symm)
    simp only [lookupChild, if_neg h1]
    exact ih (fun hm =>
      h (by simp only [List.map_cons, List.mem_cons]; exact Or.inr hm))

theorem lookupChild_delChild_self (ch : List (Str × FsNode)) (name : Str)
    (h : (ch.map Prod.fst).Nodup) :
    lookupChild (delChild ch name) name = none := by
  induction ch with
  | nil => simp [delChild, lookupChild]
  | cons kv rest ih =>
    rcases kv with ⟨k, w⟩
    simp only [List.map_cons, List.nodup_cons] at h
    by_cases hk : k = name
    · simp only [delChild, if_pos hk]
      exact lookupChild_eq_none_of_not_mem rest name (hk ▸ h.1)
    · simp only [delChild, if_neg hk, lookupChild, if_neg hk]
      exact ih h.2

theorem lookupChild_delChild_other (ch : List (Str × FsNode))
    (name name' : Str) (h : name' ≠ name) :
    lookupChild (delChild ch name) name' = lookupChild ch name' := by
  induction ch with
  | nil => simp [delChild, lookupChild]
  | cons kv rest ih =>
    rcases kv with ⟨k, w⟩
    by_cases hk : k = name
    · have hkn : ¬ k = name' := fun hh => h (hh.symm.trans hk)
      simp only [delChild, if_pos hk, lookupChild, if_neg hkn]
    · simp only [delChild, if_neg hk, lookupChild]
      by_cases hk' : k = name'
      · simp only [if_pos hk']
      · simp only [if_neg hk', ih]

theorem lookupChild_mapChild_self (ch : List (Str × FsNode)) (name : Str)
    (f : FsNode → FsNode) :
    lookupChild (mapChild ch name f) name = (lookupChild ch name).map f := by
  induction ch with
  | nil => simp [mapChild, lookupChild]
  | cons kv rest ih =>
    rcases kv with ⟨k, w⟩
    by_cases hk : k = name
    · simp only [mapChild, if_pos hk, lookupChild, if_pos hk, Option.map_some']
    · simp only [mapChild, if_neg hk, lookupChild, if_neg hk, ih]

theorem lookupChild_mapChild_other (ch : List (Str × FsNode))
    (name name' : Str) (f : FsNode → FsNode) (h : name' ≠ name) :
    lookupChild (mapChild ch name f) name' = lookupChild ch name' := by
  induction ch with
  | nil => simp [mapChild, lookupChild]
  | cons kv rest ih =>
    rcases kv with ⟨k, w⟩
    by_cases hk : k = name
    · have hkn : ¬ k = name' := fun hh => h (hh.symm.trans hk)
      simp only [mapChild, if_pos hk, lookupChild, if_neg hkn]
    · simp only [mapChild, if_neg hk, lookupChild]
      by_cases hk' : k = name'
      · simp only [if_pos hk']
      · simp only [if_neg hk', ih]

theorem getNodeParts_append (t : FsNode) (q r : List Str) :
    getNodeParts t (q ++ r) = (getNodeParts t q).bind (fun n => getNodeParts n r) := by
  induction q generalizing t with
  | nil => simp [getNodeParts]
  | cons x xs ih =>
    cases t with
    | file c cr m pe => simp [getNodeParts]
    | dir cr m pe ch =>
      simp only [List.cons_append, getNodeParts]
      cases lookupChild ch x with
      | none => simp
      | some child => simpa using ih child

theorem mapChild_congr (ch : List (Str × FsNode)) (name : Str)
    (f g : FsNode → FsNode) (h : ∀ n, f n = g n) :
    mapChild ch name f = mapChild ch name g := by
  induction ch with
  | nil => rfl
  | cons kv rest ih =>
    rcases kv with ⟨k, w⟩
    by_cases hk : k = name
    · simp only [mapChild, if_pos hk, h]
    · simp only [mapChild, if_neg hk, ih]

theorem updateAt_append (t : FsNode) (q r : List Str) (f : FsNode → FsNode) :
    updateAt t (q ++ r) f = updateAt t q (fun n => updateAt n r f) := by
  induction q generalizing t with
  | nil => simp [updateAt]
  | cons x xs ih =>
    cases t with
    | file c cr m pe => simp [updateAt]
    | dir cr m pe ch =>
      simp only [List.cons_append, updateAt]
      exact congrArg _ (mapChild_congr ch x _ _ (fun n => ih n))

theorem getNodeParts_updateAt_self (t : FsNode) (p : List Str)
    (f : FsNode → FsNode) :
    getNodeParts (updateAt t p f) p = (getNodeParts t p).map f := by
  induction p generalizing t with
  | nil => simp [getNodeParts, updateAt]
  | cons x xs ih =>
    cases t with
    | file c cr m pe => simp [getNodeParts, updateAt]
    | dir cr m pe ch =>
      simp only [updateAt, getNodeParts, lookupChild_mapChild_self]
      cases lookupChild ch x with
      | none => simp
      | some child => simpa using ih child

theorem getNodeParts_updateAt_diverge (t : FsNode) (p q : List Str)
    (f : FsNode → FsNode) (h : ¬ p <+: q) (h' : ¬ q <+: p) :
    getNodeParts (updateAt t p f) q = getNodeParts t q := by
  induction p generalizing t q with
  | nil => exact absurd (List.nil_prefix) h
  | cons x xs ih =>
    cases q with
    | nil => exact absurd (List.nil_prefix) h'
    | cons y ys =>
      cases t with
      | file c cr m pe => simp [updateAt]
      | dir cr m pe ch =>
        simp only [updateAt, getNodeParts]
        by_cases hxy : x = y
        · subst hxy
          rw [show lookupChild (mapChild ch x fun child => updateAt child xs f) x
              = (lookupChild ch x).map (fun child => updateAt child xs f)
            from lookupChild_mapChild_self ch x _]
          cases lookupChild ch x with
          | none => simp
          | some child =>
            simp only [Option.map_some']
            exact ih child ys (fun hp => h (by simpa [List.cons_prefix_cons] using hp))
              (fun hp => h' (by simpa [List.cons_prefix_cons] using hp))
        · rw [lookupChild_mapChild_other ch x y _ (fun hh => hxy hh.symm)]

theorem childrenWf_lookup (ch : List (Str × FsNode)) (name : Str) (n : FsNode)
    (h : FsNode.childrenWf ch = true) (hl : lookupChild ch name = some n) :
    n.wf = true := by
  induction ch with
  | nil => simp [lookupChild] at hl
  | cons kv rest ih =>
    rcases kv with ⟨k, w⟩
    simp only [FsNode.childrenWf, Bool.and_eq_true] at h
    by_cases hk : k = name
    · simp only [lookupChild, if_pos hk, Option.some_inj] at hl
      exact hl ▸ h.1
    · simp only [lookupChild, if_neg hk] at hl
      exact ih h.2 hl

theorem wf_at_path (t : FsNode) (p : List Str) (n : FsNode)
    (h : t.wf = true) (hget : getNodeParts t p = some n) : n.wf = true := by
  induction p generalizing t with
  | nil =>
    simp only [getNodeParts, Option.some_inj] at hget
    exact hget ▸ h
  | cons x xs ih =>
    cases t with
    | file c cr m pe => simp [getNodeParts] at hget
    | dir cr m pe ch =>
      simp only [FsNode.wf, Bool.and_eq_true] at h
      cases hl : lookupChild ch x with
      | none =>
        simp only [getNodeParts, hl] at hget
        exact Option.noConfusion hget
      | some child =>
        simp only [getNodeParts, hl] at hget
        exact ih child (childrenWf_lookup ch x child h.2 hl) hget

theorem mem_map_fst_setChild (ch : List (Str × FsNode)) (name x : Str)
    (v : FsNode) :
    x ∈ (setChild ch name v).map Prod.fst ↔ x ∈ ch.map Prod.fst ∨ x = name := by
  induction ch with
  | nil => simp [setChild]
  | cons kv rest ih =>
    rcases kv with ⟨k, w⟩
    by_cases hk : k = name
    · simp only [setChild, if_pos hk, List.map_cons, List.mem_cons]
      constructor
      · exact fun hh => Or.inl hh
      · rintro (hh | hh)
        · exact hh
        · exact Or.inl (hh.trans hk.symm)
    · simp only [setChild, if_neg hk, List.map_cons, List.mem_cons, ih]
      tauto

theorem nodup_setChild (ch : List (Str × FsNode)) (name : Str) (v : FsNode)
    (h : (ch.map Prod.fst).Nodup) :
    ((setChild ch name v).map Prod.fst).Nodup := by
  induction ch with
  | nil => simp [setChild]
  | cons kv rest ih =>
    rcases kv with ⟨k, w⟩
    simp only [List.map_cons, List.nodup_cons] at h
    by_cases hk : k = name
    · simp only [setChild, if_pos hk, List.map_cons, List.nodup_cons]
      exact ⟨h.1, h.2⟩
    · simp only [setChild, if_neg hk, List.map_cons, List.nodup_cons]
      refine ⟨?_, ih h.2⟩
      rw [mem_map_fst_setChild]
      rintro (hh | hh)
      · exact h.1 hh
      · exact hk hh

theorem childrenWf_setChild (ch : List (Str × FsNode)) (name : Str)
    (v : FsNode) (h : FsNode.childrenWf ch = true) (hv : v.wf = true) :
    FsNode.childrenWf (setChild ch name v) = true := by
  induction ch with
  | nil => simp [setChild, FsNode.childrenWf, hv]
  | cons kv rest ih =>
    rcases kv with ⟨k, w⟩
    simp only [FsNode.childrenWf, Bool.and_eq_true] at h
    by_cases hk : k = name
    · simp only [setChild, if_pos hk, FsNode.childrenWf, Bool.and_eq_true]
      exact ⟨hv, h.2⟩
    · simp only [setChild, if_neg hk, FsNode.childrenWf, Bool.and_eq_true]
      exact ⟨h.1, ih h.2⟩

theorem map_fst_delChild_sublist (ch : List (Str × FsNode)) (name : Str) :
    ((delChild ch name).map Prod.fst).Sublist (ch.map Prod.fst) := by
  induction ch with
  | nil => simp [delChild]
  | cons kv rest ih =>
    rcases kv with ⟨k, w⟩
    by_cases hk : k = name
    · simp only [delChild, if_pos hk, List.map_cons]
      exact (List.sublist_cons_self _ _)
    · simp only [delChild, if_neg hk, List.map_cons]
      exact ih.cons₂ k

theorem childrenWf_delChild (ch : List (Str × FsNode)) (name : Str)
    (h : FsNode.childrenWf ch = true) :
    FsNode.childrenWf (delChild ch name) = true := by
  induction ch with
  | nil => simp [delChild, FsNode.childrenWf]
  | cons kv rest ih =>
    rcases kv with ⟨k, w⟩
    simp only [FsNode.childrenWf, Bool.and_eq_true] at h
    by_cases hk : k = name
    · simp only [delChild, if_pos hk]
      exact h.2
    · simp only [delChild, if_neg hk, FsNode.childrenWf, Bool.and_eq_true]
      exact ⟨h.1, ih h.2⟩

theorem wf_withChildInserted (n child : FsNode) (name : Str)
    (hn : n.wf = true) (hc : child.wf = true) :
    (n.withChildInserted name child).wf = true := by
  cases n with
  | file c cr m pe => exact hn
  | dir cr m pe ch =>
    simp only [FsNode.withChildInserted]
    simp only [FsNode.wf, Bool.and_eq_true, decide_eq_true_eq] at hn ⊢
    exact ⟨nodup_setChild ch name child hn.1,
      childrenWf_setChild ch name child hn.2 hc⟩

theorem wf_withChildDeleted (n : FsNode) (name : Str) (hn : n.wf = true) :
    (n.withChildDeleted name).wf = true := by
  cases n with
  | file c cr m pe => exact hn
  | dir cr m pe ch =>
    simp only [FsNode.withChildDeleted]
    simp only [FsNode.wf, Bool.and_eq_true, decide_eq_true_eq] at hn ⊢
    exact ⟨hn.1.sublist (map_fst_delChild_sublist ch name),
      childrenWf_delChild ch name hn.2⟩

theorem wf_withModified (n : FsNode) (now : Str) (hn : n.wf = true) :
    (n.withModified now).wf = true := by
  cases n with
  | file c cr m pe => exact hn
  | dir cr m pe ch => exact hn

theorem mapChild_map_fst (ch : List (Str × FsNode)) (name : Str)
    (f : FsNode → FsNode) : (mapChild ch name f).map Prod.fst = ch.map Prod.fst := by
  induction ch with
  | nil => rfl
  | cons kv rest ih =>
    rcases kv with ⟨k, w⟩
    by_cases hk : k = name
    · simp only [mapChild, if_pos hk, List.map_cons]
    · simp only [mapChild, if_neg hk, List.map_cons, ih]

theorem childrenWf_mapChild (ch : List (Str × FsNode)) (name : Str)
    (g : FsNode → FsNode) (h : FsNode.childrenWf ch = true)
    (hg : ∀ n, n.wf = true → (g n).wf = true) :
    FsNode.childrenWf (mapChild ch name g) = true := by
  induction ch with
  | nil => exact h
  | cons kv rest ih =>
    rcases kv with ⟨k, w⟩
    simp only [FsNode.childrenWf, Bool.and_eq_true] at h
    by_cases hk : k = name
    · simp only [mapChild, if_pos hk, FsNode.childrenWf, Bool.and_eq_true]
      exact ⟨hg w h.1, h.2⟩
    · simp only [mapChild, if_neg hk, FsNode.childrenWf, Bool.and_eq_true]
      exact ⟨h.1, ih h.2⟩

theorem wf_updateAt (t : FsNode) (p : List Str) (f : FsNode → FsNode)
    (h : t.wf = true) (hf : ∀ n, n.wf = true → (f n).wf = true) :
    (updateAt t p f).wf = true := by
  induction p generalizing t with
  | nil => exact hf t h
  | cons x xs ih =>
    cases t with
    | file c cr m pe => exact h
    | dir cr m pe ch =>
      simp only [FsNode.wf, Bool.and_eq_true, decide_eq_true_eq] at h
      simp only [updateAt, FsNode.wf, Bool.and_eq_true, decide_eq_true_eq]
      constructor
      · rw [mapChild_map_fst]; exact h.1
      · exact childrenWf_mapChild ch x _ h.2 (fun n hn => ih n hn)

theorem getNodeParts_insert_unrelated (t : FsNode) (pp : List Str)
    (name : Str) (child : FsNode) (q : List Str)
    (h1 : ¬ (pp ++ [name]) <+: q) (h2 : ¬ q <+: pp) :
    getNodeParts (updateAt t pp (·.withChildInserted name child)) q
      = getNodeParts t q := by
  by_cases hpq : pp <+: q
  · obtain ⟨rest, hrest⟩ := hpq
    subst hrest
    cases rest with
    | nil => exact absurd (by simp) h2
    | cons c r' =>
      have hc : c ≠ name := by
        intro hcc; subst hcc
        exact h1 ⟨r', by simp⟩
      rw [getNodeParts_append, getNodeParts_append, getNodeParts_updateAt_self]
      cases hg : getNodeParts t pp with
      | none => simp
      | some n =>
        simp only [Option.map_some', Option.some_bind]
        cases n with
        | file cf cr m pe => rfl
        | dir cr m pe ch =>
          simp only [FsNode.withChildInserted, getNodeParts]
          rw [lookupChild_setChild_other ch name c child hc]
  · exact getNodeParts_updateAt_diverge t pp q _ hpq h2

theorem getNodeParts_delete_unrelated (t : FsNode) (pp : List Str)
    (name : Str) (q : List Str)
    (h1 : ¬ (pp ++ [name]) <+: q) (h2 : ¬ q <+: pp) :
    getNodeParts (updateAt t pp (·.withChildDeleted name)) q
      = getNodeParts t q := by
  by_cases hpq : pp <+: q
  · obtain ⟨rest, hrest⟩ := hpq
    subst hrest
    cases rest with
    | nil => exact absurd (by simp) h2
    | cons c r' =>
      have hc : c ≠ name := by
        intro hcc; subst hcc
        exact h1 ⟨r', by simp⟩
      rw [getNodeParts_append, getNodeParts_append, getNodeParts_updateAt_self]
      cases hg : getNodeParts t pp with
      | none => simp
      | some n =>
        simp only [Option.map_some', Option.some_bind]
        cases n with
        | file cf cr m pe => rfl
        | dir cr m pe ch =>
          simp only [FsNode.withChildDeleted, getNodeParts]
          rw [lookupChild_delChild_other ch name c hc]
  · exact getNodeParts_updateAt_diverge t pp q _ hpq h2

theorem getNodeParts_insert_self (t : FsNode) (pp : List Str) (name : Str)
    (child : FsNode) (cr m pe : Str) (ch : List (Str × FsNode))
    (hg : getNodeParts t pp = some (FsNode.dir cr m pe ch)) :
    getNodeParts (updateAt t pp (·.withChildInserted name child)) (pp ++ [name])
      = some child := by
  rw [getNodeParts_append, getNodeParts_updateAt_self, hg]
  simp only [Option.map_some', Option.some_bind, FsNode.withChildInserted,
    getNodeParts]
  rw [lookupChild_setChild_self]

theorem getNodeParts_delete_self_of_wf (t : FsNode) (pp : List Str)
    (name : Str) (hwf : t.wf = true) :
    getNodeParts (updateAt t pp (·.withChildDeleted name)) (pp ++ [name])
      = none := by
  rw [getNodeParts_append, getNodeParts_updateAt_self]
  cases hg : getNodeParts t pp with
  | none => simp
  | some n =>
    simp only [Option.map_some', Option.some_bind]
    cases n with
    | file cf cr m pe => rfl
    | dir cr m pe ch =>
      have hnd : (ch.map Prod.fst).Nodup := by
        have hw := wf_at_path t pp _ hwf hg
        simp only [FsNode.wf, Bool.and_eq_true, decide_eq_true_eq] at hw
        exact hw.1
      simp only [FsNode.withChildDeleted, getNodeParts]
      rw [lookupChild_delChild_self ch name hnd]

/-- `os.path.basename` (POSIX): the part after the last `/`. -/
def os_basename (p : Str) : Str :=
  (p.reverse.takeWhile (fun c => ¬ c = '/')).reverse

/-- `os.path.dirname` (POSIX): the part before the last `/`, with trailing
slashes stripped unless the result is all slashes. -/
def os_dirname (p : Str) : Str :=
  let head := p.take (p.length - (p.reverse.takeWhile (fun c => ¬ c = '/')).length)
  if head ≠ [] ∧ head.any (fun c => ¬ c = '/') then rstripSlash head else head

/-- The session state of `VirtualFileSystem`: the tree and `current_path`. -/
structure VirtualFileSystem where
  root : FsNode
  current_path : Str

namespace VirtualFileSystem

/-- The collapsed segment list that `normalize_path cur p` rebuilds. -/
def normPartsOf (cur p : Str) : List Str :=
  normParts (if p.head? = some '/' then p else osPathJoin cur p)

theorem normPartsOf_good (cur p : Str) : ∀ s ∈ normPartsOf cur p, GoodSeg s :=
  normParts_good _

theorem normalize_path_eq' (cur p : Str) :
    normalize_path cur p = '/' :: joinWithChar '/' (normPartsOf cur p) :=
  normalize_path_eq cur p

/-- `VirtualFileSystem.get_node`. -/
def get_node (fs : VirtualFileSystem) (path : Str) : Option FsNode :=
  if normalize_path fs.current_path path = ['/'] then some fs.root
  else getNodeParts fs.root
    (splitOnChar '/' (stripSlash (normalize_path fs.current_path path)))

/-- `VirtualFileSystem.get_parent_node`: parent node and item name. -/
def get_parent_node (fs : VirtualFileSystem) (path : Str) :
    Option FsNode × Str :=
  (get_node fs (os_dirname (normalize_path fs.current_path path)),
    os_basename (normalize_path fs.current_path path))

theorem takeWhile_append_stop (p : Char → Bool) (l1 l2 : Str)
    (h1 : ∀ c ∈ l1, p c = true) (h2 : ∀ c, l2.head? = some c → p c = false) :
    (l1 ++ l2).takeWhile p = l1 := by
  induction l1 with
  | nil =>
    cases l2 with
    | nil => rfl
    | cons c r =>
      simp only [List.nil_append]
      rw [List.takeWhile_cons_of_neg (by simp [h2 c rfl])]
  | cons a l ih =>
    simp only [List.cons_append]
    rw [List.takeWhile_cons_of_pos (h1 a (by simp)),
      ih (fun c hc => h1 c (by simp [hc]))]

theorem joinWithChar_cons_head (sep c : Char) (cs : Str) (ss : List Str) :
    ∃ r, joinWithChar sep ((c :: cs) :: ss) = c :: r := by
  cases ss with
  | nil => exact ⟨cs, rfl⟩
  | cons t ts => exact ⟨cs ++ sep :: joinWithChar sep (t :: ts), rfl⟩

theorem joinWithChar_getLast_ne (sep : Char) (l : List Str)
    (h : ∀ s ∈ l, s ≠ [] ∧ sep ∉ s) :
    ∀ c, (joinWithChar sep l).getLast? = some c → c ≠ sep := by
  induction l with
  | nil => intro c hc; simp [joinWithChar] at hc
  | cons s ss ih =>
    cases ss with
    | nil =>
      intro c hc
      simp only [joinWithChar] at hc
      have hmem := List.mem_of_getLast?_eq_some hc
      exact fun hcc => (h s (by simp)).2 (hcc ▸ hmem)
    | cons t ts =>
      intro c hc
      simp only [joinWithChar] at hc
      rw [List.getLast?_append] at hc
      have hne : joinWithChar sep (t :: ts) ≠ [] :=
        joinWithChar_ne_nil sep t ts (h t (by simp)).1
      rcases hjr : joinWithChar sep (t :: ts) with _ | ⟨j0, jrest⟩
      · exact absurd hjr hne
      · rw [hjr, List.getLast?_cons_cons] at hc
        cases hgl : (j0 :: jrest).getLast? with
        | none => simp at hgl
        | some c' =>
          rw [hgl] at hc
          simp only [Option.or_some, Option.some_inj] at hc
          subst hc
          exact ih (fun q hq => h q (by simp [hq])) c' (by rw [hjr]; exact hgl)

theorem rstripSlash_eq_self (l : Str)
    (h : ∀ c, l.getLast? = some c → c ≠ '/') : rstripSlash l = l := by
  unfold rstripSlash
  cases hrev : l.reverse with
  | nil =>
    have hl : l = [] := by simpa using congrArg List.reverse hrev
    simp [hl]
  | cons c cs =>
    have hc : c ≠ '/' := h c (by rw [List.getLast?_eq_head?_reverse, hrev]; rfl)
    have hl : l = (c :: cs).reverse := by rw [← hrev, List.reverse_reverse]
    subst hl
    rw [List.dropWhile_cons_of_neg (by simpa using hc)]

theorem rstripSlash_append_slash (B : Str)
    (h : ∀ c, B.getLast? = some c → c ≠ '/') : rstripSlash (B ++ ['/']) = B := by
  unfold rstripSlash
  rw [List.reverse_append]
  simp only [List.reverse_cons, List.reverse_nil, List.nil_append,
    List.singleton_append]
  rw [List.dropWhile_cons_of_pos (by simp)]
  have hdw : B.reverse.dropWhile (· = '/') = B.reverse := by
    cases hrev : B.reverse with
    | nil => rfl
    | cons c cs =>
      have hc : c ≠ '/' := h c (by rw [List.getLast?_eq_head?_reverse, hrev]; rfl)
      rw [List.dropWhile_cons_of_neg (by simpa using hc)]
  rw [hdw, List.reverse_reverse]

theorem stripSlash_norm (parts : List Str) (h : ∀ s ∈ parts, GoodSeg s) :
    stripSlash ('/' :: joinWithChar '/' parts) = joinWithChar '/' parts := by
  unfold stripSlash
  rw [List.dropWhile_cons_of_pos (by simp)]
  have hdw : (joinWithChar '/' parts).dropWhile (· = '/')
      = joinWithChar '/' parts := by
    cases parts with
    | nil => rfl
    | cons s ss =>
      rcases hs0 : s with _ | ⟨c, cs⟩
      · exact absurd hs0 (h s (by simp)).1
      · subst hs0
        obtain ⟨r, hr⟩ := joinWithChar_cons_head '/' c cs ss
        rw [hr]
        have hc : c ≠ '/' := fun hcc => (h (c :: cs) (by simp)).2.2.2 (by simp [hcc])
        rw [List.dropWhile_cons_of_neg (by simpa using hc)]
  rw [hdw]
  exact rstripSlash_eq_self _
    (joinWithChar_getLast_ne '/' parts (fun s hs => ⟨(h s hs).1, (h s hs).2.2.2⟩))

theorem joinWithChar_append_singleton (sep : Char) (init : List Str) (last : Str) :
    joinWithChar sep (init ++ [last])
      = if init = [] then last else joinWithChar sep init ++ sep :: last := by
  induction init with
  | nil => simp [joinWithChar]
  | cons x xs ih =>
    cases xs with
    | nil => simp [joinWithChar]
    | cons y ys =>
      simp only [List.cons_append] at ih ⊢
      rw [if_neg (by simp : ¬ (y :: ys : List Str) = [])] at ih
      rw [if_neg (by simp : ¬ (x :: y :: ys : List Str) = [])]
      simp only [joinWithChar, List.append_eq]
      rw [ih]
      simp

/-- Splitting a normalized path `'/' + '/'.join(parts)` as
`A ++ last`, where `A` is the dirname-with-trailing-slash part. -/
theorem norm_decomp (parts : List Str) (lastSeg : Str)
    (hlast : parts.getLast? = some lastSeg) :
    ('/' :: joinWithChar '/' parts : Str)
      = (if parts.dropLast = [] then ['/']
          else '/' :: joinWithChar '/' parts.dropLast ++ ['/']) ++ lastSeg := by
  have hne : parts ≠ [] := by
    intro hp; rw [hp] at hlast; simp at hlast
  have hdecomp : parts = parts.dropLast ++ [lastSeg] := by
    conv_lhs => rw [← List.dropLast_concat_getLast hne]
    congr 1
    rw [List.getLast?_eq_getLast _ hne, Option.some_inj] at hlast
    simp [hlast]
  conv_lhs => rw [hdecomp]
  rw [joinWithChar_append_singleton]
  by_cases hinit : parts.dropLast = []
  · simp [hinit]
  · simp only [if_neg hinit]
    simp

theorem os_basename_norm (parts : List Str) (h : ∀ s ∈ parts, GoodSeg s) :
    os_basename ('/' :: joinWithChar '/' parts) = (parts.getLast?).getD [] := by
  cases hlast : parts.getLast? with
  | none =>
    rw [List.getLast?_eq_none_iff] at hlast
    subst hlast
    rfl
  | some lastSeg =>
    have hmem : lastSeg ∈ parts := List.mem_of_getLast?_eq_some hlast
    rw [norm_decomp parts lastSeg hlast]
    unfold os_basename
    rw [List.reverse_append]
    rw [takeWhile_append_stop _ _ _
      (fun c hc => by
        simp only [List.mem_reverse] at hc
        have : c ≠ '/' := fun hcc => (h lastSeg hmem).2.2.2 (hcc ▸ hc)
        simpa using this)
      (fun c hc => by
        have hgl : (if parts.dropLast = [] then (['/'] : Str)
            else '/' :: joinWithChar '/' parts.dropLast ++ ['/']).getLast?
            = some '/' := by
          by_cases hinit : parts.dropLast = []
          · simp [hinit]
          · simp only [if_neg hinit]
            rw [show ('/' :: joinWithChar '/' parts.dropLast ++ ['/'] : Str)
                = ('/' :: joinWithChar '/' parts.dropLast) ++ ['/'] by simp,
              List.getLast?_concat]
        rw [List.head?_reverse, hgl, Option.some_inj] at hc
        simp [← hc])]
    simp [List.reverse_reverse]

theorem os_dirname_norm (parts : List Str) (h : ∀ s ∈ parts, GoodSeg s) :
    os_dirname ('/' :: joinWithChar '/' parts)
      = '/' :: joinWithChar '/' parts.dropLast := by
  cases hlast : parts.getLast? with
  | none =>
    rw [List.getLast?_eq_none_iff] at hlast
    subst hlast
    rfl
  | some lastSeg =>
    have hb := os_basename_norm parts h
    rw [hlast] at hb
    unfold os_dirname
    unfold os_basename at hb
    rw [norm_decomp parts lastSeg hlast]
    set A : Str := if parts.dropLast = [] then ['/']
      else '/' :: joinWithChar '/' parts.dropLast ++ ['/'] with hA
    have hk : ((A ++ lastSeg).reverse.takeWhile (fun c => ¬ c = '/')).length
        = lastSeg.length := by
      have : ((A ++ lastSeg).reverse.takeWhile (fun c => ¬ c = '/')).reverse
          = lastSeg := by rw [← norm_decomp parts lastSeg hlast]; exact hb.symm ▸ hb
      calc ((A ++ lastSeg).reverse.takeWhile (fun c => ¬ c = '/')).length
          = ((A ++ lastSeg).reverse.takeWhile (fun c => ¬ c = '/')).reverse.length := by
            rw [List.length_reverse]
        _ = lastSeg.length := by rw [this]
    rw [hk]
    have hlen : (A ++ lastSeg).length - lastSeg.length = A.length := by
      rw [List.length_append]; omega
    rw [hlen, List.take_left' rfl]
    by_cases hinit : parts.dropLast = []
    · rw [hA]
      simp only [if_pos hinit]
      rw [if_neg]
      · rw [hinit]; rfl
      · rintro ⟨-, hany⟩
        simp at hany
    · rw [hA]
      simp only [if_neg hinit]
      have hjgood : ∀ s ∈ parts.dropLast, s ≠ [] ∧ '/' ∉ s := fun s hs =>
        ⟨(h s (List.mem_of_mem_dropLast hs)).1,
          (h s (List.mem_of_mem_dropLast hs)).2.2.2⟩
      have hjne : joinWithChar '/' parts.dropLast ≠ [] := by
        rcases hinit' : parts.dropLast with _ | ⟨i0, irest⟩
        · exact absurd hinit' hinit
        · exact joinWithChar_ne_nil '/' i0 irest
            (hjgood i0 (by rw [hinit']; simp)).1
      have hany : (('/' :: joinWithChar '/' parts.dropLast ++ ['/'] : Str).any
          (fun c => ¬ c = '/')) = true := by
        rcases hjr : joinWithChar '/' parts.dropLast with _ | ⟨j0, jrest⟩
        · exact absurd hjr hjne
        · have hj0 : ¬ j0 = '/' := by
            have hw := mem_splitOnChar_not_mem '/'
              (joinWithChar '/' parts.dropLast)
            -- head of the join is the head of the first good segment
            rcases hinit' : parts.dropLast with _ | ⟨i0, irest⟩
            · exact absurd hinit' hinit
            · have hi0 : GoodSeg i0 := h i0
                (List.mem_of_mem_dropLast (by rw [hinit']; simp))
              rcases hi00 : i0 with _ | ⟨c0, c0s⟩
              · exact absurd hi00 hi0.1
              · obtain ⟨r, hr⟩ := joinWithChar_cons_head '/' c0 c0s irest
                rw [hinit', hi00, hr] at hjr
                have hc0 : ¬ c0 = '/' := fun hcc =>
                  hi0.2.2.2 (by rw [hi00]; simp [hcc])
                exact (List.cons_eq_cons.mp hjr).1 ▸ hc0
          exact List.any_eq_true.mpr ⟨j0, by simp, by simpa using hj0⟩
      rw [if_pos ⟨by simp, hany⟩]
      rw [show ('/' :: joinWithChar '/' parts.dropLast ++ ['/'] : Str)
          = ('/' :: joinWithChar '/' parts.dropLast) ++ ['/'] by simp]
      refine rstripSlash_append_slash _ (fun c hc => ?_)
      rcases hjr : joinWithChar '/' parts.dropLast with _ | ⟨j0, jrest⟩
      · exact absurd hjr hjne
      · rw [hjr, List.getLast?_cons_cons] at hc
        exact joinWithChar_getLast_ne '/' parts.dropLast hjgood c
          (by rw [hjr]; exact hc)

/-- A path that already starts with `/` is taken absolutely. -/
theorem normPartsOf_slash (cur : Str) (rest : Str) :
    normPartsOf cur ('/' :: rest) = normParts ('/' :: rest) := by
  simp [normPartsOf]

/-- `get_node` in terms of the collapsed segment list. -/
theorem get_node_eq (fs : VirtualFileSystem) (path : Str) :
    get_node fs path
      = getNodeParts fs.root (normPartsOf fs.current_path path) := by
  unfold get_node
  rw [show normalize_path fs.current_path path
      = '/' :: joinWithChar '/' (normPartsOf fs.current_path path)
    from normalize_path_eq' _ _]
  rcases hp : normPartsOf fs.current_path path with _ | ⟨s, ss⟩
  · simp [joinWithChar, getNodeParts]
  · have hgood : ∀ x ∈ s :: ss, GoodSeg x := fun x hx =>
      normPartsOf_good fs.current_path path x (by rw [hp]; exact hx)
    have hne : ('/' :: joinWithChar '/' (s :: ss) : Str) ≠ ['/'] := fun hh =>
      joinWithChar_ne_nil '/' s ss (hgood s (by simp)).1 (List.cons_eq_cons.mp hh).2
    rw [if_neg hne, stripSlash_norm _ hgood,
      splitOnChar_joinWithChar '/' (s :: ss) (by simp)
        (fun q hq => (hgood q hq).2.2.2)]

set_option maxHeartbeats 2000000 in
/-- `get_parent_node` in terms of the collapsed segment list: the parent is
looked up along all but the last segment, and the item name is the last
segment (`''` at the root). -/
theorem get_parent_node_eq (fs : VirtualFileSystem) (path : Str) :
    get_parent_node fs path
      = (getNodeParts fs.root (normPartsOf fs.current_path path).dropLast,
          ((normPartsOf fs.current_path path).getLast?).getD []) := by
  unfold get_parent_node
  rw [show normalize_path fs.current_path path
      = '/' :: joinWithChar '/' (normPartsOf fs.current_path path)
    from normalize_path_eq' _ _]
  have hgood := normPartsOf_good fs.current_path path
  congr 1
  · rw [os_dirname_norm _ hgood, get_node_eq]
    congr 1
    rw [normPartsOf_slash]
    exact normParts_rebuilt _
      (fun s hs => hgood s (List.mem_of_mem_dropLast hs))
  · exact os_basename_norm _ hgood

/-- `VirtualFileSystem.exists`. -/
def exists' (fs : VirtualFileSystem) (path : Str) : Bool :=
  (get_node fs path).isSome

/-- `VirtualFileSystem.is_directory`. -/
def is_directory (fs : VirtualFileSystem) (path : Str) : Bool :=
  match get_node fs path with
  | some n => n.isDir
  | none => false

/-- `VirtualFileSystem.is_file`. -/
def is_file (fs : VirtualFileSystem) (path : Str) : Bool :=
  match get_node fs path with
  | some n => !n.isDir
  | none => false

/-- `VirtualFileSystem.create_directory`; `now` stands for
`datetime.datetime.now().strftime(...)`. -/
def create_directory (fs : VirtualFileSystem) (path now : Str) :
    Bool × VirtualFileSystem :=
  match get_parent_node fs (normalize_path fs.current_path path) with
  | (some (FsNode.dir _ _ _ ch), dir_name) =>
    if (lookupChild ch dir_name).isNone then
      (true, { fs with root :=
        (updateAt fs.root
          (normPartsOf fs.current_path
            (normalize_path fs.current_path path)).dropLast
          (·.withChildInserted dir_name
            (FsNode.dir now now "drwxr-xr-x".data []))) })
    else (false, fs)
  | _ => (false, fs)

/-- `VirtualFileSystem.create_file` (overwrites an existing entry). -/
def create_file (fs : VirtualFileSystem) (path content now : Str) :
    Bool × VirtualFileSystem :=
  match get_parent_node fs (normalize_path fs.current_path path) with
  | (some (FsNode.dir ..), file_name) =>
    (true, { fs with root :=
      (updateAt fs.root
        (normPartsOf fs.current_path
          (normalize_path fs.current_path path)).dropLast
        (·.withChildInserted file_name
          (FsNode.file content now now "-rw-r--r--".data content.length))) })
  | _ => (false, fs)

/-- `VirtualFileSystem.write_file`: in-place update of an existing file
(content, modified, size), otherwise delegate to `create_file`. -/
def write_file (fs : VirtualFileSystem) (path content now : Str) :
    Bool × VirtualFileSystem :=
  match get_node fs path with
  | some (FsNode.file ..) =>
    (true, { fs with root :=
      (updateAt fs.root (normPartsOf fs.current_path path)
        (fun n => match n with
          | FsNode.file _ cr _ pe _ =>
            FsNode.file content cr now pe content.length
          | other => other)) })
  | _ => create_file fs path content now

/-- `VirtualFileSystem.read_file`. -/
def read_file (fs : VirtualFileSystem) (path : Str) : Option Str :=
  match get_node fs path with
  | some (FsNode.file content ..) => some content
  | _ => none

/-- `VirtualFileSystem.remove_item`. -/
def remove_item (fs : VirtualFileSystem) (path : Str) :
    Bool × VirtualFileSystem :=
  match get_parent_node fs (normalize_path fs.current_path path) with
  | (some (FsNode.dir _ _ _ ch), item_name) =>
    if (lookupChild ch item_name).isSome then
      (true, { fs with root :=
        (updateAt fs.root
          (normPartsOf fs.current_path
            (normalize_path fs.current_path path)).dropLast
          (·.withChildDeleted item_name)) })
    else (false, fs)
  | _ => (false, fs)

/-- `VirtualFileSystem.move_item`: insert the looked-up node under the
destination parent, delete the source entry, refresh the moved node's
modified timestamp.  (The Python code mutates the shared node object after
re-inserting it; here the refreshed node is inserted directly, which
matches the observable tree whenever the destination parent is not located
under the source entry.) -/
def move_item (fs : VirtualFileSystem) (src_path dst_path now : Str) :
    Bool × VirtualFileSystem :=
  match get_parent_node fs (normalize_path fs.current_path src_path),
      get_parent_node fs (normalize_path fs.current_path dst_path) with
  | (some (FsNode.dir _ _ _ sch), src_name), (some (FsNode.dir ..), dst_name) =>
    match lookupChild sch src_name with
    | some item =>
      (true, { fs with root :=
        (updateAt
          (updateAt fs.root
            (normPartsOf fs.current_path
              (normalize_path fs.current_path dst_path)).dropLast
            (·.withChildInserted dst_name (item.withModified now)))
          (normPartsOf fs.current_path
            (normalize_path fs.current_path src_path)).dropLast
          (·.withChildDeleted src_name)) })
    | none => (false, fs)
  | _, _ => (false, fs)

/-- `VirtualFileSystem.copy_item`: deep copy of the source node (value copy
in the functional model), fresh stamps on the copy's top node only. -/
def copy_item (fs : VirtualFileSystem) (src_path dst_path now : Str) :
    Bool × VirtualFileSystem :=
  match get_node fs (normalize_path fs.current_path src_path),
      get_parent_node fs (normalize_path fs.current_path dst_path) with
  | some src_node, (some (FsNode.dir ..), dst_name) =>
    (true, { fs with root :=
      (updateAt fs.root
        (normPartsOf fs.current_path
          (normalize_path fs.current_path dst_path)).dropLast
        (·.withChildInserted dst_name (src_node.withStamps now))) })
  | _, _ => (false, fs)

/-- `str.lower()` (ASCII). -/
def strLower (s : Str) : Str := s.map Char.toLower

/-- `x.endswith('/')`. -/
def endsWithSlash (s : Str) : Bool := s.getLast? = some '/'

/-- Code-point comparison `a <= b` on strings, as Python compares them. -/
def strLeB : Str → Str → Bool
  | [], _ => true
  | _ :: _, [] => false
  | a :: as, b :: bs =>
    if a.toNat < b.toNat then true
    else if b.toNat < a.toNat then false
    else strLeB as bs

/-- The sort key of `list_directory`: `(x.endswith('/'), x.lower())`,
compared as Python compares tuples (`False < True`, then string order). -/
def listKeyLe (a b : Str) : Bool :=
  if endsWithSlash a = endsWithSlash b then strLeB (strLower a) (strLower b)
  else !endsWithSlash a

/-- `VirtualFileSystem.list_directory`: decorate directory names with `/`,
sort by `(x.endswith('/'), x.lower())`.  Python's `sorted` is a stable
sort; a stable sort's output is determined extensionally, and we embed it
as the stable insertion sort. -/
def list_directory (fs : VirtualFileSystem) (path : Str) : List Str :=
  match get_node fs path with
  | some (FsNode.dir _ _ _ ch) =>
    List.insertionSort (fun a b => listKeyLe a b = true)
      (ch.map (fun nv => if nv.2.isDir then nv.1 ++ ['/'] else nv.1))
  | _ => []

/-- The seed timestamp `'2024-01-01 00:00:00'`. -/
def ts0 : Str := "2024-01-01 00:00:00".data

/-- The seeded initial tree of `VirtualFileSystem.__init__`, verbatim —
including its literal `size` values (89, 46, 26), which do not match the
lengths of the seeded contents (84, 54, 34). -/
def initial_fs : VirtualFileSystem :=
  { root := FsNode.dir ts0 ts0 "drwxr-xr-x".data [
      ("home".data, FsNode.dir ts0 ts0 "drwxr-xr-x".data [
        ("user".data, FsNode.dir ts0 ts0 "drwxr-xr-x".data [
          ("documents".data, FsNode.dir ts0 ts0 "drwxr-xr-x".data [
            ("readme.txt".data,
              FsNode.file ("Welcome to the virtual file system!\nThis is a safe environment for testing commands.").data
                ts0 ts0 "-rw-r--r--".data 89)]),
          ("downloads".data, FsNode.dir ts0 ts0 "drwxr-xr-x".data []),
          ("projects".data, FsNode.dir ts0 ts0 "drwxr-xr-x".data [
            ("script.py".data,
              FsNode.file ("#!/usr/bin/env python3\nprint(\"Hello, Virtual World!\")\n").data
                ts0 ts0 "-rwxr-xr-x".data 46)])])]),
      ("tmp".data, FsNode.dir ts0 ts0 "drwxrwxrwx".data []),
      ("etc".data, FsNode.dir ts0 ts0 "drwxr-xr-x".data [
        ("hosts".data,
          FsNode.file ("127.0.0.1 localhost\n::1 localhost\n").data
            ts0 ts0 "-rw-r--r--".data 26)])],
    current_path := "/home/user".data }

/-- `VirtualFileSystem.change_directory`. -/
def change_directory (fs : VirtualFileSystem) (path : Str) :
    Bool × VirtualFileSystem :=
  let path' := if path = ['~'] then "/home/user".data else path
  let target := normalize_path fs.current_path path'
  if is_directory fs target then (true, { fs with current_path := target })
  else (false, fs)

end VirtualFileSystem

namespace Colors

/-- ANSI code `'\033[0m'` from `utils/colors.py` (octal 033 = 0x1b). -/
def RESET : Str := "\x1b[0m".data

def RED : Str := "\x1b[31m".data

def GREEN : Str := "\x1b[32m".data

def YELLOW : Str := "\x1b[33m".data

end Colors

namespace FileOperations

open VirtualFileSystem

/-- `f"{Colors.GREEN}{text}{Colors.RESET}"`. -/
def green (s : Str) : Str := Colors.GREEN ++ s ++ Colors.RESET

/-- `f"{Colors.RED}{text}{Colors.RESET}"`. -/
def red (s : Str) : Str := Colors.RED ++ s ++ Colors.RESET

/-- `f"{Colors.YELLOW}{text}{Colors.RESET}"`. -/
def yellow (s : Str) : Str := Colors.YELLOW ++ s ++ Colors.RESET

/-- The `for dir_name in args` loop of `FileOperations.cmd_mkdir`
(sandboxed mode): arguments starting with `-` are skipped via `continue`;
the first other argument is processed and the function RETURNS from inside
the loop, in both the success and the failure branch. -/
def mkdirLoop (fs : VirtualFileSystem) (args : List Str) (now : Str) :
    Str × VirtualFileSystem :=
  match args with
  | [] => ([], fs)
  | dir_name :: rest =>
    if dir_name.head? = some '-' then mkdirLoop fs rest now
    else
      match create_directory fs dir_name now with
      | (true, fs') => (green ("Directory created: ".data ++ dir_name), fs')
      | (false, fs') => (red ("Failed to create directory: ".data ++ dir_name), fs')

/-- `FileOperations.cmd_mkdir` (sandboxed mode). -/
def cmd_mkdir (fs : VirtualFileSystem) (args : List Str) (now : Str) :
    Str × VirtualFileSystem :=
  if args = [] then (yellow "Usage: mkdir <directory_name>".data, fs)
  else mkdirLoop fs args now

/-- One iteration of the `for file_name in args` loop of
`FileOperations.cmd_touch` (sandboxed mode): the produced `results` line
(if any) and the updated filesystem.  An existing path that is not a file
(a directory) appends no line and changes nothing; an existing file gets
its `modified` stamp refreshed in place; an absent path is created via
`create_file`. -/
def touchStep (fs : VirtualFileSystem) (file_name now : Str) :
    Option Str × VirtualFileSystem :=
  if exists' fs file_name then
    match get_node fs file_name with
    | some (FsNode.file ..) =>
      (some (green ("Updated timestamp: ".data ++ file_name)),
        { fs with root :=
            (updateAt fs.root (normPartsOf fs.current_path file_name)
              (fun n => n.withModified now)) })
    | _ => (none, fs)
  else
    match create_file fs file_name [] now with
    | (true, fs') => (some (green ("File created: ".data ++ file_name)), fs')
    | (false, fs') =>
      (some (red ("Failed to create file: ".data ++ file_name)), fs')

/-- The `for file_name in args` loop of `cmd_touch`, collecting the
`results` lines and threading the filesystem state. -/
def touchLoop : VirtualFileSystem → List Str → Str → List Str × VirtualFileSystem
  | fs, [], _ => ([], fs)
  | fs, file_name :: rest, now =>
    match touchStep fs file_name now with
    | (some msg, fs') =>
      ((touchLoop fs' rest now).1.cons msg, (touchLoop fs' rest now).2)
    | (none, fs') => touchLoop fs' rest now

/-- `FileOperations.cmd_touch` (sandboxed mode): `'\n'.join(results)`. -/
def cmd_touch (fs : VirtualFileSystem) (args : List Str) (now : Str) :
    Str × VirtualFileSystem :=
  if args = [] then (yellow "Usage: touch <filename>".data, fs)
  else
    (joinWithChar '\n' (touchLoop fs args now).1, (touchLoop fs args now).2)

end FileOperations

namespace FileOperations

open VirtualFileSystem

theorem exists'_of_dir (fs : VirtualFileSystem) (p : Str)
    (hdir : is_directory fs p = true) :
    ∃ cr m pe ch, get_node fs p = some (FsNode.dir cr m pe ch) := by
  unfold is_directory at hdir
  cases hgg : get_node fs p with
  | none => rw [hgg] at hdir; simp at hdir
  | some n =>
    cases n with
    | file c cr m pe => rw [hgg] at hdir; simp [FsNode.isDir] at hdir
    | dir cr m pe ch => exact ⟨cr, m, pe, ch, rfl⟩

/-- **C10.** In sandboxed mode, `touch` applied to a path that exists and
is a directory produces no output line for that argument and leaves the
filesystem state completely unchanged — no timestamp refresh, no creation,
no error message. -/
theorem c10_touch_directory_noop (fs : VirtualFileSystem) (p now : Str)
    (hdir : is_directory fs p = true) :
    cmd_touch fs [p] now = ([], fs) := by
  obtain ⟨cr, m, pe, ch, hg⟩ := exists'_of_dir fs p hdir
  have hex : exists' fs p = true := by
    unfold exists'; rw [hg]; rfl
  have hstep : touchStep fs p now = (none, fs) := by
    unfold touchStep
    rw [if_pos hex, hg]
  have hloop : touchLoop fs [p] now = ([], fs) := by
    rw [touchLoop, hstep]
    rfl
  unfold cmd_touch
  rw [if_neg (by simp : ¬ ([p] : List Str) = [])]
  rw [hloop]
  rfl

/-- `touch /tmp` on the seeded filesystem: silently unchanged. -/
theorem c10_touch_directory_noop_witness :
    is_directory initial_fs "/tmp".data = true ∧
    cmd_touch initial_fs ["/tmp".data] ts0 = ([], initial_fs) :=
  ⟨by decide, c10_touch_directory_noop initial_fs "/tmp".data ts0 (by decide)⟩

theorem mkdirLoop_skip_flags (fs : VirtualFileSystem) (now : Str)
    (pre : List Str) (l : List Str)
    (hpre : ∀ a ∈ pre, a.head? = some '-') :
    mkdirLoop fs (pre ++ l) now = mkdirLoop fs l now := by
  induction pre with
  | nil => rfl
  | cons a ps ih =>
    simp only [List.cons_append]
    rw [show mkdirLoop fs (a :: (ps ++ l)) now
        = if a.head? = some '-' then mkdirLoop fs (ps ++ l) now
          else match create_directory fs a now with
            | (true, fs') => (green ("Directory created: ".data ++ a), fs')
            | (false, fs') =>
              (red ("Failed to create directory: ".data ++ a), fs')
      from rfl]
    rw [if_pos (hpre a (by simp))]
    exact ih (fun b hb => hpre b (by simp [hb]))

/-- **C2.** For every argument list containing two or more non-flag names
(`pre` are leading `-` flags, `d` the first non-flag, and `rest` contains
a further non-flag), `cmd_mkdir` processes only `d` — creating it or
reporting failure for it — and returns immediately, producing exactly the
state and message of that single `create_directory` call; every later name
is left unprocessed. -/
theorem c2_mkdir_processes_only_first (fs : VirtualFileSystem) (now : Str)
    (pre : List Str) (d : Str) (rest : List Str)
    (hpre : ∀ a ∈ pre, a.head? = some '-')
    (hd : ¬ d.head? = some '-')
    (hrest : ∃ e ∈ rest, ¬ e.head? = some '-') :
    cmd_mkdir fs (pre ++ d :: rest) now = cmd_mkdir fs (pre ++ [d]) now ∧
    cmd_mkdir fs (pre ++ d :: rest) now
      = (if (create_directory fs d now).1 = true
          then green ("Directory created: ".data ++ d)
          else red ("Failed to create directory: ".data ++ d),
        (create_directory fs d now).2) := by
  have hmain : ∀ r : List Str, mkdirLoop fs (pre ++ d :: r) now
      = (if (create_directory fs d now).1 = true
          then green ("Directory created: ".data ++ d)
          else red ("Failed to create directory: ".data ++ d),
        (create_directory fs d now).2) := by
    intro r
    rw [mkdirLoop_skip_flags fs now pre (d :: r) hpre]
    rw [show mkdirLoop fs (d :: r) now
        = if d.head? = some '-' then mkdirLoop fs r now
          else match create_directory fs d now with
            | (true, fs') => (green ("Directory created: ".data ++ d), fs')
            | (false, fs') =>
              (red ("Failed to create directory: ".data ++ d), fs')
      from rfl]
    rw [if_neg hd]
    rcases hcd : create_directory fs d now with ⟨b, fs'⟩
    cases b
    · simp
    · simp
  have hne1 : ¬ (pre ++ d :: rest : List Str) = [] := by simp
  have hne2 : ¬ (pre ++ [d] : List Str) = [] := by simp
  unfold cmd_mkdir
  rw [if_neg hne1, if_neg hne2, hmain rest, hmain []]
  exact ⟨rfl, rfl⟩

/-- `mkdir -p a b` on the seeded filesystem processes only `a`. -/
theorem c2_mkdir_processes_only_first_witness :
    cmd_mkdir initial_fs ["-p".data, "a".data, "b".data] ts0
      = cmd_mkdir initial_fs ["-p".data, "a".data] ts0 :=
  (c2_mkdir_processes_only_first initial_fs ts0 ["-p".data] "a".data
    ["b".data] (by decide) (by decide) ⟨"b".data, by simp, by decide⟩).1

end FileOperations

namespace VirtualFileSystem

theorem list_decomp_last (l : List Str) (h : l ≠ []) :
    ∃ x, l.getLast? = some x ∧ l.dropLast ++ [x] = l :=
  ⟨l.getLast h, List.getLast?_eq_getLast l h, List.dropLast_concat_getLast h⟩

/-- Normalization is idempotent at the segment level. -/
theorem normPartsOf_normalize (cur p : Str) :
    normPartsOf cur (normalize_path cur p) = normPartsOf cur p := by
  rw [normalize_path_eq', normPartsOf_slash]
  exact normParts_rebuilt _ (normPartsOf_good cur p)

theorem normPartsOf_ne_nil (cur p : Str)
    (hroot : normalize_path cur p ≠ ['/']) : normPartsOf cur p ≠ [] := by
  intro h
  apply hroot
  rw [normalize_path_eq', h]
  rfl

theorem getNodeParts_singleton (t : FsNode) (l : Str) (n : FsNode)
    (h : getNodeParts t [l] = some n) :
    ∃ cr m pe ch, t = FsNode.dir cr m pe ch ∧ lookupChild ch l = some n := by
  cases t with
  | file c cr m pe => simp [getNodeParts] at h
  | dir cr m pe ch =>
    refine ⟨cr, m, pe, ch, rfl, ?_⟩
    simp only [getNodeParts] at h
    cases hl : lookupChild ch l with
    | none => rw [hl] at h; exact Option.noConfusion h
    | some child =>
      rw [hl] at h
      simpa [getNodeParts] using h

theorem write_file_of_file (fs : VirtualFileSystem) (p c now : Str)
    (c0 cr0 m0 pe0 : Str) (s0 : Nat)
    (hg : get_node fs p = some (FsNode.file c0 cr0 m0 pe0 s0)) :
    write_file fs p c now
      = (true, { fs with root :=
          (updateAt fs.root (normPartsOf fs.current_path p)
            (fun n => match n with
              | FsNode.file _ cr _ pe _ => FsNode.file c cr now pe c.length
              | other => other)) }) := by
  unfold write_file
  rw [hg]

theorem write_file_of_dir (fs : VirtualFileSystem) (p c now : Str)
    (cr m pe : Str) (ch : List (Str × FsNode))
    (hg : get_node fs p = some (FsNode.dir cr m pe ch)) :
    write_file fs p c now = create_file fs p c now := by
  unfold write_file
  rw [hg]

theorem write_file_of_none (fs : VirtualFileSystem) (p c now : Str)
    (hg : get_node fs p = none) :
    write_file fs p c now = create_file fs p c now := by
  unfold write_file
  rw [hg]

/-- `create_file` in terms of the collapsed segment list. -/
theorem create_file_eq (fs : VirtualFileSystem) (path content now : Str) :
    create_file fs path content now
      = match getNodeParts fs.root (normPartsOf fs.current_path path).dropLast with
        | some (FsNode.dir ..) =>
          (true, { fs with root :=
              (updateAt fs.root (normPartsOf fs.current_path path).dropLast
                (·.withChildInserted
                  (((normPartsOf fs.current_path path).getLast?).getD [])
                  (FsNode.file content now now "-rw-r--r--".data
                    content.length))) })
        | _ => (false, fs) := by
  unfold create_file
  rw [get_parent_node_eq, normPartsOf_normalize]
  rcases hpp : getNodeParts fs.root (normPartsOf fs.current_path path).dropLast
    with _ | n
  · rfl
  · cases n with
    | file c cr m pe => rfl
    | dir cr m pe ch => rfl

end VirtualFileSystem

namespace VirtualFileSystem

theorem create_file_of_parent_dir (fs : VirtualFileSystem)
    (path content now : Str) (crP mP peP : Str) (chP : List (Str × FsNode))
    (hpp : getNodeParts fs.root (normPartsOf fs.current_path path).dropLast
      = some (FsNode.dir crP mP peP chP)) :
    create_file fs path content now
      = (true, { fs with root :=
          (updateAt fs.root (normPartsOf fs.current_path path).dropLast
            (·.withChildInserted
              (((normPartsOf fs.current_path path).getLast?).getD [])
              (FsNode.file content now now "-rw-r--r--".data
                content.length))) }) := by
  rw [create_file_eq, hpp]

/-- A successful `create_file` on a non-root path stores the file and
makes it readable. -/
theorem create_file_roundtrip (fs : VirtualFileSystem) (p c now : Str)
    (hroot : normalize_path fs.current_path p ≠ ['/'])
    (hw : (create_file fs p c now).1 = true) :
    read_file (create_file fs p c now).2 p = some c ∧
    ∃ cr pe, get_node (create_file fs p c now).2 p
      = some (FsNode.file c cr now pe c.length) := by
  obtain ⟨l, hl, hdec⟩ := list_decomp_last _ (normPartsOf_ne_nil _ _ hroot)
  rw [create_file_eq] at hw
  cases hpp : getNodeParts fs.root (normPartsOf fs.current_path p).dropLast with
  | none => rw [hpp] at hw; exact absurd hw (by simp)
  | some parent =>
    cases parent with
    | file cf crf mf pef sf => rw [hpp] at hw; exact absurd hw (by simp)
    | dir crP mP peP chP =>
      have hget : get_node
          ({ fs with root :=
            (updateAt fs.root (normPartsOf fs.current_path p).dropLast
              (·.withChildInserted
                (((normPartsOf fs.current_path p).getLast?).getD [])
                (FsNode.file c now now "-rw-r--r--".data c.length))) } :
            VirtualFileSystem) p
          = some (FsNode.file c now now "-rw-r--r--".data c.length) := by
        rw [get_node_eq]
        show getNodeParts
          (updateAt fs.root (normPartsOf fs.current_path p).dropLast _)
          (normPartsOf fs.current_path p) = _
        rw [hl, show (some l).getD [] = l from rfl]
        nth_rewrite 2 [← hdec]
        exact getNodeParts_insert_self fs.root _ l _ crP mP peP chP hpp
      have hread : read_file
          ({ fs with root :=
            (updateAt fs.root (normPartsOf fs.current_path p).dropLast
              (·.withChildInserted
                (((normPartsOf fs.current_path p).getLast?).getD [])
                (FsNode.file c now now "-rw-r--r--".data c.length))) } :
            VirtualFileSystem) p = some c := by
        unfold read_file
        rw [hget]
      rw [create_file_of_parent_dir fs p c now crP mP peP chP hpp]
      exact ⟨hread, now, "-rw-r--r--".data, hget⟩

set_option maxHeartbeats 1000000 in
/-- **C5 (amended).** Whenever `write_file(p, c)` succeeds and `p` does not
normalize to the root `/`, a subsequent `read_file(p)` returns exactly `c`,
and the file node stored at `p` has `size = len(c)` (write and create set
the size invariantly; the root case and failed writes are excluded, and
copy/move merely preserve existing `size` fields verbatim). -/
theorem c5_write_read_roundtrip (fs : VirtualFileSystem) (p c now : Str)
    (hw : (write_file fs p c now).1 = true)
    (hroot : normalize_path fs.current_path p ≠ ['/']) :
    read_file (write_file fs p c now).2 p = some c ∧
    ∃ cr pe, get_node (write_file fs p c now).2 p
      = some (FsNode.file c cr now pe c.length) := by
  cases hg : get_node fs p with
  | some n =>
    cases n with
    | file c0 cr0 m0 pe0 s0 =>
      have hparts : getNodeParts fs.root (normPartsOf fs.current_path p)
          = some (FsNode.file c0 cr0 m0 pe0 s0) := by
        rw [← get_node_eq]; exact hg
      have hget : get_node
          ({ fs with root :=
            (updateAt fs.root (normPartsOf fs.current_path p)
              (fun n => match n with
                | FsNode.file _ cr _ pe _ =>
                  FsNode.file c cr now pe c.length
                | other => other)) } : VirtualFileSystem) p
          = some (FsNode.file c cr0 now pe0 c.length) := by
        rw [get_node_eq]
        show getNodeParts
          (updateAt fs.root (normPartsOf fs.current_path p) _)
          (normPartsOf fs.current_path p) = _
        rw [getNodeParts_updateAt_self, hparts]
        rfl
      have hread : read_file
          ({ fs with root :=
            (updateAt fs.root (normPartsOf fs.current_path p)
              (fun n => match n with
                | FsNode.file _ cr _ pe _ =>
                  FsNode.file c cr now pe c.length
                | other => other)) } : VirtualFileSystem) p = some c := by
        unfold read_file
        rw [hget]
      rw [write_file_of_file fs p c now c0 cr0 m0 pe0 s0 hg]
      exact ⟨hread, cr0, pe0, hget⟩
    | dir cr m pe ch =>
      rw [write_file_of_dir fs p c now cr m pe ch hg] at hw ⊢
      exact create_file_roundtrip fs p c now hroot hw
  | none =>
    rw [write_file_of_none fs p c now hg] at hw ⊢
    exact create_file_roundtrip fs p c now hroot hw

/-- **C5 counterexample.** At `p = "/"` (an existing directory),
`write_file` returns `True` yet `read_file("/")` does not return the
written text: the new file is stored under the empty name while `get_node`
special-cases `/` to the root directory. -/
theorem c5_counterexample :
    (write_file initial_fs "/".data "x".data ts0).1 = true ∧
    read_file (write_file initial_fs "/".data "x".data ts0).2 "/".data
      ≠ some "x".data := by
  constructor
  · rfl
  · decide

/-- Round trip at `/tmp/x.txt` with text `hi` on the seeded filesystem. -/
theorem c5_write_read_roundtrip_witness :
    (write_file initial_fs "/tmp/x.txt".data "hi".data ts0).1 = true ∧
    normalize_path initial_fs.current_path "/tmp/x.txt".data ≠ ['/'] ∧
    read_file (write_file initial_fs "/tmp/x.txt".data "hi".data ts0).2
      "/tmp/x.txt".data = some "hi".data :=
  ⟨by decide, by decide,
    (c5_write_read_roundtrip initial_fs "/tmp/x.txt".data "hi".data ts0
      (by decide) (by decide)).1⟩

end VirtualFileSystem

namespace VirtualFileSystem

set_option maxHeartbeats 1000000 in
/-- **C9 (amended).** For every path `p` that exists, is a directory, and
does not normalize to the root `/`, `write_file(p, c)` returns `True` and
replaces the directory node with a file of content `c`; every former child
of the directory is unreachable afterwards.  (At the root itself the call
returns `True` but stores a file under the empty name instead of replacing
the root.) -/
theorem c9_write_replaces_directory (fs : VirtualFileSystem) (p c now : Str)
    (hdir : is_directory fs p = true)
    (hroot : normalize_path fs.current_path p ≠ ['/']) :
    (write_file fs p c now).1 = true ∧
    get_node (write_file fs p c now).2 p
      = some (FsNode.file c now now "-rw-r--r--".data c.length) ∧
    ∀ rest : List Str, rest ≠ [] →
      getNodeParts (write_file fs p c now).2.root
        (normPartsOf fs.current_path p ++ rest) = none := by
  obtain ⟨l, hl, hdec⟩ := list_decomp_last _ (normPartsOf_ne_nil _ _ hroot)
  obtain ⟨cr, m, pe, ch, hg⟩ := FileOperations.exists'_of_dir fs p hdir
  have hparts : getNodeParts fs.root (normPartsOf fs.current_path p)
      = some (FsNode.dir cr m pe ch) := by
    rw [← get_node_eq]; exact hg
  have hsplit : (getNodeParts fs.root
        ((normPartsOf fs.current_path p).dropLast)).bind
      (fun n => getNodeParts n [l]) = some (FsNode.dir cr m pe ch) := by
    rw [← getNodeParts_append, hdec]; exact hparts
  obtain ⟨parent, hparent, hstep⟩ := Option.bind_eq_some.mp hsplit
  obtain ⟨crP, mP, peP, chP, hpeq, hlook⟩ :=
    getNodeParts_singleton parent l _ hstep
  subst hpeq
  have hcf := create_file_of_parent_dir fs p c now crP mP peP chP hparent
  rw [write_file_of_dir fs p c now cr m pe ch hg, hcf]
  refine ⟨rfl, ?_, ?_⟩
  · show get_node
        ({ fs with root :=
          (updateAt fs.root (normPartsOf fs.current_path p).dropLast
            (·.withChildInserted
              (((normPartsOf fs.current_path p).getLast?).getD [])
              (FsNode.file c now now "-rw-r--r--".data c.length))) } :
          VirtualFileSystem) p = _
    rw [get_node_eq]
    show getNodeParts
      (updateAt fs.root (normPartsOf fs.current_path p).dropLast _)
      (normPartsOf fs.current_path p) = _
    rw [hl, show (some l).getD [] = l from rfl]
    nth_rewrite 2 [← hdec]
    exact getNodeParts_insert_self fs.root _ l _ crP mP peP chP hparent
  · intro rest hrest
    show getNodeParts
      (updateAt fs.root (normPartsOf fs.current_path p).dropLast
        (·.withChildInserted
          (((normPartsOf fs.current_path p).getLast?).getD [])
          (FsNode.file c now now "-rw-r--r--".data c.length)))
      (normPartsOf fs.current_path p ++ rest) = none
    rw [hl, show (some l).getD [] = l from rfl]
    nth_rewrite 2 [← hdec]
    rw [getNodeParts_append]
    rw [getNodeParts_insert_self fs.root _ l _ crP mP peP chP hparent]
    cases rest with
    | nil => exact absurd rfl hrest
    | cons r0 r' => rfl

/-- **C9 counterexample.** At `p = "/"` — an existing directory —
`write_file` returns `True` but does not replace the root: it stays a
directory and its subtree (e.g. the seeded readme) remains reachable. -/
theorem c9_counterexample :
    is_directory initial_fs "/".data = true ∧
    (write_file initial_fs "/".data "x".data ts0).1 = true ∧
    is_directory (write_file initial_fs "/".data "x".data ts0).2 "/".data
      = true ∧
    read_file (write_file initial_fs "/".data "x".data ts0).2
      "/home/user/documents/readme.txt".data ≠ none := by
  exact ⟨by decide, rfl, by decide, by decide⟩

/-- Writing over the directory `/tmp` replaces it with a file. -/
theorem c9_write_replaces_directory_witness :
    is_directory initial_fs "/tmp".data = true ∧
    (write_file initial_fs "/tmp".data "x".data ts0).1 = true ∧
    get_node (write_file initial_fs "/tmp".data "x".data ts0).2 "/tmp".data
      = some (FsNode.file "x".data ts0 ts0 "-rw-r--r--".data
          ("x".data).length) := by
  have h := c9_write_replaces_directory initial_fs "/tmp".data "x".data ts0
    (by decide) (by decide)
  exact ⟨by decide, h.1, h.2.1⟩

end VirtualFileSystem

namespace VirtualFileSystem

set_option maxHeartbeats 1000000 in
/-- `move_item` in terms of the collapsed segment lists. -/
theorem move_item_eq (fs : VirtualFileSystem) (src dst now : Str) :
    move_item fs src dst now
      = match getNodeParts fs.root (normPartsOf fs.current_path src).dropLast,
          getNodeParts fs.root (normPartsOf fs.current_path dst).dropLast with
        | some (FsNode.dir _ _ _ sch), some (FsNode.dir ..) =>
          match lookupChild sch
              (((normPartsOf fs.current_path src).getLast?).getD []) with
          | some item =>
            (true, { fs with root :=
              (updateAt
                (updateAt fs.root (normPartsOf fs.current_path dst).dropLast
                  (·.withChildInserted
                    (((normPartsOf fs.current_path dst).getLast?).getD [])
                    (item.withModified now)))
                (normPartsOf fs.current_path src).dropLast
                (·.withChildDeleted
                  (((normPartsOf fs.current_path src).getLast?).getD []))) })
          | none => (false, fs)
        | _, _ => (false, fs) := by
  unfold move_item
  rw [get_parent_node_eq, get_parent_node_eq, normPartsOf_normalize,
    normPartsOf_normalize]
  rcases hsp : getNodeParts fs.root
      (normPartsOf fs.current_path src).dropLast with _ | sn
  · rfl
  · rcases hdp : getNodeParts fs.root
        (normPartsOf fs.current_path dst).dropLast with _ | dn
    · cases sn with
      | file c cr m pe => rfl
      | dir cr m pe sch => rfl
    · cases sn with
      | file c cr m pe => rfl
      | dir cr m pe sch =>
        cases dn with
        | file c2 cr2 m2 pe2 => rfl
        | dir cr2 m2 pe2 dch =>
          rcases hlk : lookupChild sch
              (((normPartsOf fs.current_path src).getLast?).getD [])
            with _ | item
          · rfl
          · rfl

end VirtualFileSystem

namespace VirtualFileSystem

set_option maxHeartbeats 2000000 in
/-- **C3 (amended).** For every pair of paths whose normalized segment
lists are prefix-incomparable (the source is not the destination, neither
lies inside the other's subtree), a successful `move_item(src, dst)`
leaves `exists(src) = false` and stores at `dst` exactly the node that was
at `src`, with its `modified` timestamp refreshed.  (When `src = dst` the
entry is lost, and when one path lies under the other the re-parenting can
lose or self-capture the node — see the counterexample.) -/
theorem c3_move_item (fs : VirtualFileSystem) (src dst now : Str)
    (hwf : fs.root.wf = true)
    (h1 : ¬ normPartsOf fs.current_path src <+: normPartsOf fs.current_path dst)
    (h2 : ¬ normPartsOf fs.current_path dst <+: normPartsOf fs.current_path src)
    (hmv : (move_item fs src dst now).1 = true) :
    exists' (move_item fs src dst now).2 src = false ∧
    ∃ item, get_node fs src = some item ∧
      get_node (move_item fs src dst now).2 dst
        = some (item.withModified now) := by
  have hsne : normPartsOf fs.current_path src ≠ [] := by
    intro h; exact h1 (h ▸ List.nil_prefix)
  have hdne : normPartsOf fs.current_path dst ≠ [] := by
    intro h; exact h2 (h ▸ List.nil_prefix)
  obtain ⟨sl, hsl, hsdec⟩ := list_decomp_last _ hsne
  obtain ⟨dl, hdl, hddec⟩ := list_decomp_last _ hdne
  rw [move_item_eq] at hmv
  rcases hsp : getNodeParts fs.root (normPartsOf fs.current_path src).dropLast
    with _ | sn
  · rw [hsp] at hmv; exact absurd hmv (by simp)
  rcases hdp : getNodeParts fs.root (normPartsOf fs.current_path dst).dropLast
    with _ | dn
  · rw [hsp, hdp] at hmv
    cases sn with
    | file c cr m pe => exact absurd hmv (by simp)
    | dir cr m pe sch => exact absurd hmv (by simp)
  cases sn with
  | file c cr m pe => rw [hsp, hdp] at hmv; exact absurd hmv (by simp)
  | dir cr m pe sch =>
    cases dn with
    | file c2 cr2 m2 pe2 => rw [hsp, hdp] at hmv; exact absurd hmv (by simp)
    | dir cr2 m2 pe2 dch =>
      have hslG : (((normPartsOf fs.current_path src).getLast?).getD []) = sl := by
        rw [hsl]; rfl
      have hdlG : (((normPartsOf fs.current_path dst).getLast?).getD []) = dl := by
        rw [hdl]; rfl
      rcases hlk : lookupChild sch sl with _ | item
      · rw [hsp, hdp] at hmv
        simp only [hslG, hlk] at hmv
        exact Bool.noConfusion hmv
      · have hitemwf : item.wf = true := by
          have hsnwf := wf_at_path fs.root _ _ hwf hsp
          simp only [FsNode.wf, Bool.and_eq_true] at hsnwf
          exact childrenWf_lookup sch sl item hsnwf.2 hlk
        have hR1wf : (updateAt fs.root
            (normPartsOf fs.current_path dst).dropLast
            (·.withChildInserted dl (item.withModified now))).wf = true :=
          wf_updateAt _ _ _ hwf (fun n hn =>
            wf_withChildInserted n (item.withModified now) dl hn
              (wf_withModified item now hitemwf))
        have hA : ¬ ((normPartsOf fs.current_path src).dropLast ++ [sl])
            <+: normPartsOf fs.current_path dst := by
          rw [hsdec]; exact h1
        have hB : ¬ normPartsOf fs.current_path dst
            <+: (normPartsOf fs.current_path src).dropLast := fun hpre =>
          h2 (hpre.trans ⟨[sl], hsdec⟩)
        have hmove : move_item fs src dst now
            = (true, { fs with root :=
                (updateAt
                  (updateAt fs.root (normPartsOf fs.current_path dst).dropLast
                    (·.withChildInserted dl (item.withModified now)))
                  (normPartsOf fs.current_path src).dropLast
                  (·.withChildDeleted sl)) }) := by
          rw [move_item_eq, hsp, hdp]
          simp only [hslG, hdlG, hlk]
        rw [hmove]
        constructor
        · show exists'
            ({ fs with root :=
              (updateAt
                (updateAt fs.root (normPartsOf fs.current_path dst).dropLast
                  (·.withChildInserted dl (item.withModified now)))
                (normPartsOf fs.current_path src).dropLast
                (·.withChildDeleted sl)) } : VirtualFileSystem) src = false
          unfold exists'
          rw [get_node_eq]
          show (getNodeParts
            (updateAt
              (updateAt fs.root (normPartsOf fs.current_path dst).dropLast
                (·.withChildInserted dl (item.withModified now)))
              (normPartsOf fs.current_path src).dropLast
              (·.withChildDeleted sl))
            (normPartsOf fs.current_path src)).isSome = false
          nth_rewrite 2 [← hsdec]
          rw [getNodeParts_delete_self_of_wf _ _ _ hR1wf]
          rfl
        · refine ⟨item, ?_, ?_⟩
          · rw [get_node_eq, ← hsdec, getNodeParts_append, hsp]
            show getNodeParts (FsNode.dir cr m pe sch) [sl] = some item
            simp only [getNodeParts, hlk]
          · show get_node
              ({ fs with root :=
                (updateAt
                  (updateAt fs.root (normPartsOf fs.current_path dst).dropLast
                    (·.withChildInserted dl (item.withModified now)))
                  (normPartsOf fs.current_path src).dropLast
                  (·.withChildDeleted sl)) } : VirtualFileSystem) dst
              = some (item.withModified now)
            rw [get_node_eq]
            show getNodeParts
              (updateAt
                (updateAt fs.root (normPartsOf fs.current_path dst).dropLast
                  (·.withChildInserted dl (item.withModified now)))
                (normPartsOf fs.current_path src).dropLast
                (·.withChildDeleted sl))
              (normPartsOf fs.current_path dst)
              = some (item.withModified now)
            rw [getNodeParts_delete_unrelated _ _ _ _ hA hB]
            nth_rewrite 2 [← hddec]
            exact getNodeParts_insert_self fs.root _ dl _ cr2 m2 pe2 dch hdp

end VirtualFileSystem

namespace VirtualFileSystem

/-- **C3 counterexample.** `move_item("/tmp", "/tmp")` returns `True`, yet
afterwards the destination does not exist: the re-insert-then-delete on
the same parent entry deletes the node outright, so `exists(dst)` is
`false`, contradicting the claim as stated. -/
theorem c3_counterexample :
    (move_item initial_fs "/tmp".data "/tmp".data ts0).1 = true ∧
    exists' (move_item initial_fs "/tmp".data "/tmp".data ts0).2 "/tmp".data
      = false := by
  exact ⟨rfl, by decide⟩

/-- Moving `/etc/hosts` to `/tmp/h2` on the seeded filesystem. -/
theorem c3_move_item_witness :
    (move_item initial_fs "/etc/hosts".data "/tmp/h2".data ts0).1 = true ∧
    exists' (move_item initial_fs "/etc/hosts".data "/tmp/h2".data ts0).2
      "/etc/hosts".data = false := by
  have h := c3_move_item initial_fs "/etc/hosts".data "/tmp/h2".data ts0
    (by decide) (by decide) (by decide) (by decide)
  exact ⟨by decide, h.1⟩

end VirtualFileSystem

namespace VirtualFileSystem

theorem strLeB_total (a b : Str) : strLeB a b = true ∨ strLeB b a = true := by
  induction a generalizing b with
  | nil => left; rfl
  | cons x xs ih =>
    cases b with
    | nil => right; rfl
    | cons y ys =>
      by_cases hxy : x.toNat < y.toNat
      · left; simp [strLeB, hxy]
      · by_cases hyx : y.toNat < x.toNat
        · right; simp [strLeB, hyx]
        · rcases ih ys with h | h
          · left; simp [strLeB, hxy, hyx, h]
          · right; simp [strLeB, hxy, hyx, h]

theorem strLeB_trans (a b c : Str) (h1 : strLeB a b = true)
    (h2 : strLeB b c = true) : strLeB a c = true := by
  induction a generalizing b c with
  | nil => rfl
  | cons x xs ih =>
    cases b with
    | nil => simp [strLeB] at h1
    | cons y ys =>
      cases c with
      | nil => simp [strLeB] at h2
      | cons z zs =>
        simp only [strLeB] at h1 h2 ⊢
        by_cases hxy : x.toNat < y.toNat <;>
          by_cases hyz : y.toNat < z.toNat <;>
            by_cases hyx : y.toNat < x.toNat <;>
              by_cases hzy : z.toNat < y.toNat <;>
                simp [hxy, hyz, hyx, hzy] at h1 h2 ⊢ <;>
                  first
                  | omega
                  | (rw [if_pos (by omega)])
                  | (rw [if_neg (by omega), if_neg (by omega)]
                     exact ih ys zs h1 h2)
                  | (exact Or.inr ⟨by omega, ih ys zs h1 h2⟩)

theorem listKeyLe_total (a b : Str) : listKeyLe a b || listKeyLe b a := by
  unfold listKeyLe
  by_cases h : endsWithSlash a = endsWithSlash b
  · rw [if_pos h, if_pos h.symm]
    rcases strLeB_total (strLower a) (strLower b) with hh | hh <;> simp [hh]
  · rw [if_neg h, if_neg (fun hh => h hh.symm)]
    cases ha : endsWithSlash a
    · simp
    · cases hb : endsWithSlash b
      · simp
      · exact absurd (ha.trans hb.symm) h

theorem listKeyLe_trans (a b c : Str) (h1 : listKeyLe a b) (h2 : listKeyLe b c) :
    listKeyLe a c := by
  unfold listKeyLe at h1 h2 ⊢
  by_cases hab : endsWithSlash a = endsWithSlash b <;>
    by_cases hbc : endsWithSlash b = endsWithSlash c
  · rw [if_pos hab] at h1
    rw [if_pos hbc] at h2
    rw [if_pos (hab.trans hbc)]
    exact strLeB_trans _ _ _ h1 h2
  · rw [if_neg (fun hh : endsWithSlash a = endsWithSlash c =>
      hbc (hab.symm.trans hh))]
    rw [if_neg hbc] at h2
    rw [hab]
    exact h2
  · rw [if_neg (fun hh : endsWithSlash a = endsWithSlash c =>
      hab (hh.trans hbc.symm))]
    rw [if_neg hab] at h1
    exact h1
  · rw [if_neg hab] at h1
    rw [if_neg hbc] at h2
    simp only [Bool.not_eq_true'] at h1 h2
    exact absurd (h1.trans h2.symm) hab

end VirtualFileSystem

namespace VirtualFileSystem

/-- The listing order the claim states: ascending by the key
`(is_directory, lowercase name)` with the *undecorated* name, the `/`
suffix added only afterwards.  (Comparison definition follows the claim's
words, for comparison against `list_directory`.) -/
def list_directory_spec (fs : VirtualFileSystem) (path : Str) : List Str :=
  match get_node fs path with
  | some (FsNode.dir _ _ _ ch) =>
    (List.insertionSort
      (fun a b : Str × FsNode =>
        (if a.2.isDir = b.2.isDir then strLeB (strLower a.1) (strLower b.1)
         else !a.2.isDir) = true) ch).map
      (fun nv => if nv.2.isDir then nv.1 ++ ['/'] else nv.1)
  | _ => []

/-- `/tmp` populated with directories `a` and `a-b`. -/
def c6CxFs : VirtualFileSystem :=
  (create_directory (create_directory initial_fs "/tmp/a".data ts0).2
    "/tmp/a-b".data ts0).2

/-- A directory `/tmp/ex` holding files `b.txt`, `A.txt` and
subdirectory `z`. -/
def c6ExampleFs : VirtualFileSystem :=
  (create_directory
    (create_file
      (create_file (create_directory initial_fs "/tmp/ex".data ts0).2
        "/tmp/ex/b.txt".data [] ts0).2
      "/tmp/ex/A.txt".data [] ts0).2
    "/tmp/ex/z".data ts0).2

set_option maxHeartbeats 1000000 in
/-- **C6 (amended).** For every existing directory, `list_directory`
returns exactly the decorated child names (directories suffixed with `/`)
sorted ascending by the key `(x.endswith('/'), x.lower())` — i.e. files
first then directories, alphabetically case-insensitive by the *decorated*
name; in particular files `b.txt`, `A.txt` and subdirectory `z` list as
`["A.txt", "b.txt", "z/"]`. -/
theorem c6_list_directory_sorted (fs : VirtualFileSystem) (path : Str)
    (cr m pe : Str) (ch : List (Str × FsNode))
    (hg : get_node fs path = some (FsNode.dir cr m pe ch)) :
    (list_directory fs path).Pairwise (fun a b => listKeyLe a b = true) ∧
    (list_directory fs path).Perm
      (ch.map (fun nv => if nv.2.isDir then nv.1 ++ ['/'] else nv.1)) ∧
    list_directory c6ExampleFs "/tmp/ex".data
      = ["A.txt".data, "b.txt".data, "z/".data] := by
  have hld : list_directory fs path
      = List.insertionSort (fun a b => listKeyLe a b = true)
          (ch.map (fun nv => if nv.2.isDir then nv.1 ++ ['/'] else nv.1)) := by
    unfold list_directory
    rw [hg]
  letI : IsTrans Str (fun a b => listKeyLe a b = true) :=
    ⟨fun a b c hab hbc => listKeyLe_trans a b c hab hbc⟩
  letI : IsTotal Str (fun a b => listKeyLe a b = true) :=
    ⟨fun a b => (Bool.or_eq_true _ _).mp (listKeyLe_total a b)⟩
  refine ⟨?_, ?_, by decide⟩
  · rw [hld]
    exact List.sorted_insertionSort _ _
  · rw [hld]
    exact List.perm_insertionSort _ _

/-- **C6 counterexample.** With directories `a` and `a-b` in `/tmp`, the
code lists `["a-b/", "a/"]` (the key lowercases the already-decorated
name, and `'-' < '/'`), while sorting directories alphabetically by their
undecorated lowercase name — as the claim states — would give
`["a/", "a-b/"]`. -/
theorem c6_counterexample :
    list_directory c6CxFs "/tmp".data ≠ list_directory_spec c6CxFs "/tmp".data ∧
    list_directory c6CxFs "/tmp".data = ["a-b/".data, "a/".data] ∧
    list_directory_spec c6CxFs "/tmp".data = ["a/".data, "a-b/".data] := by
  refine ⟨by decide, by decide, by decide⟩

/-- Listing `/home/user` on the seeded filesystem is sorted and a
permutation of the decorated children. -/
theorem c6_list_directory_sorted_witness :
    (list_directory initial_fs "/home/user".data).Pairwise
      (fun a b => listKeyLe a b = true) ∧
    list_directory c6ExampleFs "/tmp/ex".data
      = ["A.txt".data, "b.txt".data, "z/".data] :=
  ⟨(c6_list_directory_sorted initial_fs "/home/user".data ts0 ts0
      "drwxr-xr-x".data
      [("documents".data, FsNode.dir ts0 ts0 "drwxr-xr-x".data
          [("readme.txt".data,
            FsNode.file ("Welcome to the virtual file system!\nThis is a safe environment for testing commands.").data
              ts0 ts0 "-rw-r--r--".data 89)]),
        ("downloads".data, FsNode.dir ts0 ts0 "drwxr-xr-x".data []),
        ("projects".data, FsNode.dir ts0 ts0 "drwxr-xr-x".data
          [("script.py".data,
            FsNode.file ("#!/usr/bin/env python3\nprint(\"Hello, Virtual World!\")\n").data
              ts0 ts0 "-rwxr-xr-x".data 46)])]
      rfl).1,
    (c6_list_directory_sorted initial_fs "/home/user".data ts0 ts0
      "drwxr-xr-x".data
      [("documents".data, FsNode.dir ts0 ts0 "drwxr-xr-x".data
          [("readme.txt".data,
            FsNode.file ("Welcome to the virtual file system!\nThis is a safe environment for testing commands.").data
              ts0 ts0 "-rw-r--r--".data 89)]),
        ("downloads".data, FsNode.dir ts0 ts0 "drwxr-xr-x".data []),
        ("projects".data, FsNode.dir ts0 ts0 "drwxr-xr-x".data
          [("script.py".data,
            FsNode.file ("#!/usr/bin/env python3\nprint(\"Hello, Virtual World!\")\n").data
              ts0 ts0 "-rwxr-xr-x".data 46)])]
      rfl).2.2⟩

end VirtualFileSystem

namespace TerminalCore

/-- Python `str.isspace` on the whitespace characters `str.strip()`
removes (ASCII: space, tab, newline, carriage return, vertical tab,
form feed). -/
def pyIsSpace (c : Char) : Bool :=
  c = ' ' || c = '\t' || c = '\n' || c = '\x0d' || c = '\x0b' || c = '\x0c'

/-- Python `s.strip()`: drop whitespace from both ends. -/
def pyStrip (s : Str) : Str :=
  ((s.dropWhile pyIsSpace).reverse.dropWhile pyIsSpace).reverse

/-- The `Terminal` state relevant to `execute`: the in-memory
`command_history` list. -/
structure Terminal where
  command_history : List Str
deriving DecidableEq

/-- `Terminal.execute` (sandboxed mode, `use_virtual = True`, so the
subprocess fallback for unknown commands is skipped).  The parser
(`CommandParser.parse`, built on the Python stdlib `shlex`) and the
`self.commands` handler table are parameters: `parse` returns
`Except.error e` where the Python code raises (caught by the
`except Exception` clause), and a handler returns `Except.error e` where
it raises (caught and rendered as `Error executing ...`).  Returns the
output string and the updated terminal state. -/
def Terminal.execute (parse : Str → Except Str (Str × List Str))
    (commands : Str → Option (List Str → Except Str Str))
    (t : Terminal) (command_line : Str) : Str × Terminal :=
  if (pyStrip command_line).isEmpty then ([], t)
  else
    match parse command_line with
    | Except.error e =>
      (Colors.RED ++ "Parse error: ".data ++ e ++ Colors.RESET, t)
    | Except.ok (cmd, args) =>
      let t' : Terminal := ⟨t.command_history ++ [command_line]⟩
      match commands cmd with
      | some handler =>
        match handler args with
        | Except.ok result => ((if result.isEmpty then [] else result), t')
        | Except.error e =>
          (Colors.RED ++ "Error executing ".data ++ cmd ++ ": ".data
             ++ e ++ Colors.RESET, t')
      | none =>
        (Colors.RED ++ "Command not found: ".data ++ cmd ++ Colors.RESET, t')

/-- **C7.** `execute` on an empty or whitespace-only line returns empty
output and leaves the state (in particular the history) unchanged;
on a line the parser rejects it returns the `Parse error:` text and
leaves the history unchanged; on every other line the raw line is
appended to the history exactly once — for every handler table, so in
particular also when the command is unknown or its handler raises. -/
theorem c7_execute_history (parse : Str → Except Str (Str × List Str))
    (commands : Str → Option (List Str → Except Str Str))
    (t : Terminal) (line : Str) :
    ((pyStrip line).isEmpty = true →
      Terminal.execute parse commands t line = ([], t)) ∧
    (∀ e, (pyStrip line).isEmpty = false → parse line = Except.error e →
      Terminal.execute parse commands t line
        = (Colors.RED ++ "Parse error: ".data ++ e ++ Colors.RESET, t)) ∧
    (∀ cmd args, (pyStrip line).isEmpty = false →
      parse line = Except.ok (cmd, args) →
      (Terminal.execute parse commands t line).2.command_history
        = t.command_history ++ [line]) := by
  refine ⟨fun h => ?_, fun e hne hp => ?_, fun cmd args hne hp => ?_⟩
  · unfold Terminal.execute
    rw [if_pos h]
  · unfold Terminal.execute
    rw [if_neg (by simp [hne]), hp]
  · unfold Terminal.execute
    rw [if_neg (by simp [hne]), hp]
    rcases hc : commands cmd with _ | handler
    · simp only [hc]
    · rcases hh : handler args with r | e
      · simp only [hc, hh]
      · simp only [hc, hh]

/-- A parser rejecting `bad"line` and parsing anything else as a bare
command name, for exercising `execute` concretely. -/
def c7Parse : Str → Except Str (Str × List Str) := fun line =>
  if line = "bad\"line".data
  then Except.error "Invalid command syntax: No closing quotation".data
  else Except.ok (pyStrip line, [])

/-- Concrete runs of `execute`: a whitespace-only line leaves the state
untouched, a parse failure leaves the history untouched, and an unknown
command still appends the raw line once. -/
theorem c7_execute_history_witness :
    Terminal.execute c7Parse (fun _ => none) ⟨[]⟩ "   ".data
      = ([], (⟨[]⟩ : Terminal)) ∧
    Terminal.execute c7Parse (fun _ => none) ⟨[]⟩ "bad\"line".data
      = (Colors.RED ++ "Parse error: ".data
          ++ "Invalid command syntax: No closing quotation".data
          ++ Colors.RESET, (⟨[]⟩ : Terminal)) ∧
    (Terminal.execute c7Parse (fun _ => none) ⟨[]⟩ "nosuchcmd".data).2.command_history
      = [] ++ ["nosuchcmd".data] :=
  ⟨(c7_execute_history c7Parse (fun _ => none) ⟨[]⟩ "   ".data).1 (by decide),
   (c7_execute_history c7Parse (fun _ => none) ⟨[]⟩ "bad\"line".data).2.1
     "Invalid command syntax: No closing quotation".data (by decide) rfl,
   (c7_execute_history c7Parse (fun _ => none) ⟨[]⟩ "nosuchcmd".data).2.2
     "nosuchcmd".data [] (by decide) rfl⟩

end TerminalCore

namespace AICommandInterpreter

/-- The characters of the regex class `\s` (ASCII; queries here are ASCII). -/
def spaceChars : List Char := [' ', '\t', '\n', '\x0d', '\x0b', '\x0c']

/-- The regex class `\w` (ASCII word characters). -/
def isWordChar (c : Char) : Bool :=
  (decide ('a'.toNat ≤ c.toNat ∧ c.toNat ≤ 'z'.toNat)) ||
  (decide ('A'.toNat ≤ c.toNat ∧ c.toNat ≤ 'Z'.toNat)) ||
  (decide ('0'.toNat ≤ c.toNat ∧ c.toNat ≤ '9'.toNat)) || c == '_'

/-- Abstract syntax of the regex fragment `command_patterns` uses:
literals, character classes, `\w`, `\s`, `.`, concatenation, alternation,
greedy/lazy `*` and `?`, numbered capturing groups and backreferences
(`+` is encoded as `seq r (star r)`; no pattern repeats a group). -/
inductive Rx where
  | eps
  | ch (c : Char)
  | cls (neg : Bool) (cs : List Char)
  | wcls
  | scls
  | dot
  | seq (a b : Rx)
  | alt (a b : Rx)
  | star (greedy : Bool) (r : Rx)
  | opt (greedy : Bool) (r : Rx)
  | grp (i : Nat) (r : Rx)
  | bref (i : Nat)

/-- Capture bindings, most recent first (Python keeps the last capture of
each group; failed alternatives are discarded with the backtrack). -/
def Caps : Type := List (Nat × Str)

/-- The current text of group `i`, if it has captured. -/
def capsGet (caps : Caps) (i : Nat) : Option Str :=
  (List.find? (fun e => e.1 == i) caps).map (fun e => e.2)

/-- Case-insensitive match of the literal `t` at position `pos` of `s`
(`re.IGNORECASE` also applies to backreferences). -/
def litAt : Str → Nat → Str → Bool
  | _, _, [] => true
  | s, pos, b :: bs =>
    match s.get? pos with
    | some a => a.toLower == b.toLower && litAt s (pos + 1) bs
    | none => false

/-- Backtracking regex matcher with explicit success continuation `k`,
exploring alternatives in Python's priority order: alternation
left-to-right, greedy repetition longest-first, lazy repetition
shortest-first.  Matching is case-insensitive (`re.IGNORECASE`).  `fuel`
bounds the recursion depth and is chosen large enough for every concrete
run in this file. -/
def rxMatch : Nat → Rx → Str → Nat → Caps → (Nat → Caps → Option Caps) →
    Option Caps
  | 0, _, _, _, _, _ => none
  | Nat.succ fuel, r, s, pos, caps, k =>
    match r with
    | Rx.eps => k pos caps
    | Rx.ch c =>
      match s.get? pos with
      | some a => if a.toLower == c.toLower then k (pos + 1) caps else none
      | none => none
    | Rx.cls neg cs =>
      match s.get? pos with
      | some a =>
        if (cs.any (fun c => a.toLower == c.toLower)) != neg
        then k (pos + 1) caps else none
      | none => none
    | Rx.wcls =>
      match s.get? pos with
      | some a => if isWordChar a then k (pos + 1) caps else none
      | none => none
    | Rx.scls =>
      match s.get? pos with
      | some a => if spaceChars.contains a then k (pos + 1) caps else none
      | none => none
    | Rx.dot =>
      match s.get? pos with
      | some a => if a == '\n' then none else k (pos + 1) caps
      | none => none
    | Rx.seq a b =>
      rxMatch fuel a s pos caps (fun p c => rxMatch fuel b s p c k)
    | Rx.alt a b =>
      match rxMatch fuel a s pos caps k with
      | some m => some m
      | none => rxMatch fuel b s pos caps k
    | Rx.opt greedy r1 =>
      if greedy then
        match rxMatch fuel r1 s pos caps k with
        | some m => some m
        | none => k pos caps
      else
        match k pos caps with
        | some m => some m
        | none => rxMatch fuel r1 s pos caps k
    | Rx.star greedy r1 =>
      if greedy then
        match rxMatch fuel r1 s pos caps (fun p c =>
            if p == pos then none
            else rxMatch fuel (Rx.star greedy r1) s p c k) with
        | some m => some m
        | none => k pos caps
      else
        match k pos caps with
        | some m => some m
        | none =>
          rxMatch fuel r1 s pos caps (fun p c =>
            if p == pos then none
            else rxMatch fuel (Rx.star greedy r1) s p c k)
    | Rx.grp i r1 =>
      rxMatch fuel r1 s pos caps (fun p c =>
        k p ((i, (s.drop pos).take (p - pos)) :: c))
    | Rx.bref i =>
      match capsGet caps i with
      | some t => if litAt s pos t then k (pos + t.length) caps else none
      | none => none

def rxFuel : Nat := 1000

/-- `re.search`: try each start position left to right; the leftmost
position with a match wins.  Returns the final capture bindings. -/
def searchAux (r : Rx) (s : Str) : Nat → Nat → Option Caps
  | _, 0 => none
  | i, Nat.succ rem =>
    match rxMatch rxFuel r s i [] (fun _ c => some c) with
    | some c => some c
    | none => searchAux r s (i + 1) rem

def re_search (r : Rx) (s : Str) : Option Caps :=
  searchAux r s 0 (s.length + 1)

/-- Apply a postfix operator (`*`, `*?`, `+`, `+?`, `?`) if one follows
the atom. -/
def parsePostfix (a : Rx) (s : Str) : Rx × Str :=
  match s with
  | '*' :: '?' :: r => (Rx.star false a, r)
  | '*' :: r => (Rx.star true a, r)
  | '+' :: '?' :: r => (Rx.seq a (Rx.star false a), r)
  | '+' :: r => (Rx.seq a (Rx.star true a), r)
  | '?' :: r => (Rx.opt true a, r)
  | _ => (a, s)

/-- Parse the body of a character class up to `]`; `\s` expands to the
whitespace characters, any other escape to the escaped character (the
classes in `command_patterns` contain no ranges). -/
def parseClassBody : Nat → Str → Option (List Char × Str)
  | 0, _ => none
  | _ + 1, [] => none
  | _ + 1, ']' :: r => some ([], r)
  | fuel + 1, '\\' :: c :: r =>
    match parseClassBody fuel r with
    | some (cs, r2) => some ((if c == 's' then spaceChars else [c]) ++ cs, r2)
    | none => none
  | fuel + 1, c :: r =>
    match parseClassBody fuel r with
    | some (cs, r2) => some (c :: cs, r2)
    | none => none

/-- The three levels of the regex grammar, folded into one fuelled
function: alternation, concatenation, single atom. -/
inductive PMode where
  | alt
  | cat
  | atom

/-- Recursive-descent reading of a pattern: returns the parsed node, the
unconsumed input, and the next capturing-group number. -/
def parseR : Nat → PMode → Str → Nat → Option (Rx × Str × Nat)
  | 0, _, _, _ => none
  | fuel + 1, PMode.alt, s, g =>
    match parseR fuel PMode.cat s g with
    | some (a, s1, g1) =>
      match s1 with
      | '|' :: r =>
        match parseR fuel PMode.alt r g1 with
        | some (b, s2, g2) => some (Rx.alt a b, s2, g2)
        | none => none
      | _ => some (a, s1, g1)
    | none => none
  | fuel + 1, PMode.cat, s, g =>
    match s with
    | [] => some (Rx.eps, [], g)
    | ')' :: _ => some (Rx.eps, s, g)
    | '|' :: _ => some (Rx.eps, s, g)
    | _ =>
      match parseR fuel PMode.atom s g with
      | some (a, s1, g1) =>
        match parsePostfix a s1 with
        | (a2, s2) =>
          match parseR fuel PMode.cat s2 g1 with
          | some (b, s3, g3) => some (Rx.seq a2 b, s3, g3)
          | none => none
      | none => none
  | fuel + 1, PMode.atom, s, g =>
    match s with
    | '(' :: '?' :: ':' :: r =>
      match parseR fuel PMode.alt r g with
      | some (a, ')' :: s2, g1) => some (a, s2, g1)
      | _ => none
    | '(' :: r =>
      match parseR fuel PMode.alt r (g + 1) with
      | some (a, ')' :: s2, g1) => some (Rx.grp g a, s2, g1)
      | _ => none
    | '[' :: '^' :: r =>
      match parseClassBody 200 r with
      | some (cs, r2) => some (Rx.cls true cs, r2, g)
      | none => none
    | '[' :: r =>
      match parseClassBody 200 r with
      | some (cs, r2) => some (Rx.cls false cs, r2, g)
      | none => none
    | '\\' :: c :: r =>
      if c == 'w' then some (Rx.wcls, r, g)
      else if c == 's' then some (Rx.scls, r, g)
      else if c.isDigit then some (Rx.bref (c.toNat - '0'.toNat), r, g)
      else some (Rx.ch c, r, g)
    | '.' :: r => some (Rx.dot, r, g)
    | c :: r =>
      if c == ')' || c == '|' || c == '*' || c == '+' || c == '?'
      then none else some (Rx.ch c, r, g)
    | [] => none

/-- `re.compile` for the fragment at hand: parse a whole pattern; returns
the regex and its number of capturing groups. -/
def parseRx (p : Str) : Option (Rx × Nat) :=
  match parseR 500 PMode.alt p 1 with
  | some (r, [], g) => some (r, g - 1)
  | _ => none

/-- `match.groups()`: the capture of each group `1..n`, `None` when the
group did not participate. -/
def groupsOf (n : Nat) (caps : Caps) : List (Option Str) :=
  (List.range n).map (fun j => capsGet caps (j + 1))

/-- `self.command_patterns` of `AICommandInterpreter.__init__`, verbatim
and in insertion order (Python dicts iterate in insertion order). -/
def command_patterns : List (Str × List Str) := [
  ("create_dir".data, [
    (r#"(?:create|make).*?(?:folder|directory).*?(?:called|named)?\s+(["\']?)(\w+)\1"#).data,
    (r#"mkdir\s+(["\']?)(\w+)\1"#).data,
    (r#"new\s+(?:folder|directory)\s+(["\']?)(\w+)\1"#).data]),
  ("create_file".data, [
    (r#"(?:create|make).*?file.*?(?:called|named)?\s+(["\']?)([^"\'\s]+)\1"#).data,
    (r#"touch\s+(["\']?)([^"\'\s]+)\1"#).data,
    (r#"new\s+file\s+(["\']?)([^"\'\s]+)\1"#).data]),
  ("list".data, [
    (r#"(?:list|show).*?(?:files|directories|contents|what\'?s here)"#).data,
    (r#"what.*?(?:here|directory|folder)"#).data,
    (r#"ls"#).data,
    (r#"dir"#).data,
    (r#"show\s+me.*?(?:files|contents)"#).data]),
  ("list_detailed".data, [
    (r#"(?:list|show).*?(?:detailed|details|long)"#).data,
    (r#"ls.*?-l"#).data,
    (r#"detailed.*?(?:list|listing)"#).data]),
  ("change_dir".data, [
    (r#"(?:go|navigate|change).*?(?:to|into)\s+(["\']?)([^"\'\s]+)\1"#).data,
    (r#"cd\s+(["\']?)([^"\'\s]+)\1"#).data,
    (r#"enter\s+(?:folder|directory)\s+(["\']?)([^"\'\s]+)\1"#).data]),
  ("go_home".data, [
    (r#"go\s+home"#).data,
    (r#"cd\s+~"#).data,
    (r#"home\s+directory"#).data]),
  ("go_back".data, [
    (r#"go\s+back"#).data,
    (r#"cd\s+\.\."#).data,
    (r#"parent\s+directory"#).data,
    (r#"up\s+(?:one\s+)?(?:level|directory)"#).data]),
  ("current_dir".data, [
    (r#"where.*?am.*?i"#).data,
    (r#"current.*?(?:directory|folder|location|path)"#).data,
    (r#"pwd"#).data,
    (r#"print.*?working.*?directory"#).data]),
  ("remove_file".data, [
    (r#"(?:delete|remove).*?file\s+(["\']?)([^"\'\s]+)\1"#).data,
    (r#"rm\s+(["\']?)([^"\'\s]+)\1"#).data]),
  ("remove_dir".data, [
    (r#"(?:delete|remove).*?(?:folder|directory)\s+(["\']?)([^"\'\s]+)\1"#).data,
    (r#"rmdir\s+(["\']?)([^"\'\s]+)\1"#).data,
    (r#"rm\s+-r\s+(["\']?)([^"\'\s]+)\1"#).data]),
  ("copy".data, [
    (r#"copy\s+(["\']?)([^"\'\s]+)\1.*?(?:to|into)\s+(["\']?)([^"\'\s]+)\3"#).data,
    (r#"cp\s+(["\']?)([^"\'\s]+)\1\s+(["\']?)([^"\'\s]+)\3"#).data]),
  ("move".data, [
    (r#"move\s+(["\']?)([^"\'\s]+)\1.*?(?:to|into)\s+(["\']?)([^"\'\s]+)\3"#).data,
    (r#"mv\s+(["\']?)([^"\'\s]+)\1\s+(["\']?)([^"\'\s]+)\3"#).data,
    (r#"rename\s+(["\']?)([^"\'\s]+)\1.*?(?:to)\s+(["\']?)([^"\'\s]+)\3"#).data]),
  ("show_file".data, [
    (r#"(?:show|display|cat|read).*?file\s+(["\']?)([^"\'\s]+)\1"#).data,
    (r#"cat\s+(["\']?)([^"\'\s]+)\1"#).data,
    (r#"what\'?s\s+in\s+(["\']?)([^"\'\s]+)\1"#).data]),
  ("find_file".data, [
    (r#"find.*?file.*?(?:called|named)\s+(["\']?)([^"\'\s]+)\1"#).data,
    (r#"search.*?for.*?(["\']?)([^"\'\s]+)\1"#).data,
    (r#"locate.*?(["\']?)([^"\'\s]+)\1"#).data]),
  ("system_info".data, [
    (r#"(?:show|display).*?system.*?(?:info|information)"#).data,
    (r#"sysinfo"#).data,
    (r#"system\s+details"#).data,
    (r#"computer\s+info"#).data]),
  ("processes".data, [
    (r#"(?:show|list).*?(?:processes|running\s+programs)"#).data,
    (r#"ps"#).data,
    (r#"what.*?running"#).data,
    (r#"active\s+processes"#).data]),
  ("memory".data, [
    (r#"(?:show|check).*?memory.*?usage"#).data,
    (r#"free\s+memory"#).data,
    (r#"ram\s+usage"#).data,
    (r#"memory\s+info"#).data]),
  ("disk_space".data, [
    (r#"(?:show|check).*?disk.*?(?:space|usage)"#).data,
    (r#"df"#).data,
    (r#"storage\s+info"#).data,
    (r#"free\s+space"#).data]),
  ("clear_screen".data, [
    (r#"clear.*?(?:screen|terminal)"#).data,
    (r#"cls"#).data,
    (r#"clean.*?screen"#).data]),
  ("help".data, [
    (r#"help"#).data,
    (r#"what.*?can.*?do"#).data,
    (r#"available.*?commands"#).data,
    (r#"show.*?commands"#).data])]

/-- `self.shortcuts`. -/
def shortcuts : List (Str × Str) := [
  ("desktop".data, "Desktop".data),
  ("documents".data, "Documents".data),
  ("downloads".data, "Downloads".data),
  ("home".data, ['~']),
  ("root".data, ['/']),
  ("temp".data, "/tmp".data),
  ("temporary".data, "/tmp".data)]

/-- `AICommandInterpreter.normalize_path`: replace a known shortcut
(looked up lowercase), otherwise keep the path. -/
def normalize_path (path : Str) : Str :=
  match List.find? (fun e => e.1 == VirtualFileSystem.strLower path) shortcuts with
  | some e => e.2
  | none => path

/-- Python `a or b` on two group values, where `None` and the empty
string are falsy. -/
def pyOrStr (a b : Option Str) : Option Str :=
  match a with
  | some s => if s.isEmpty then b else some s
  | none => b

/-- Python truthiness of a group value. -/
def pyTruthy (a : Option Str) : Option Str :=
  match a with
  | some s => if s.isEmpty then none else some s
  | none => none

/-- The `groups[1] or groups[0]` / `groups[0] if groups else d` ladder
shared by the name-extracting branches of `_process_match`. -/
def groupName (groups : List (Option Str)) (d : Str) : Option Str :=
  if 2 ≤ groups.length then pyOrStr ((groups.get? 1).join) ((groups.get? 0).join)
  else if groups.length = 0 then some d
  else (groups.get? 0).join

/-- `AICommandInterpreter._process_match`.  `none` stands for Python's
`(None, [])` returns, which the caller's `if cmd:` treats as no command.
Where the code would pass a `None` name on (`normalize_path(None)` would
raise, `[None]` would be appended), the name-capturing group of every
pattern in that branch requires at least one character, so the value is
never `None`; we read it with `.getD []`. -/
def _process_match (command_type : Str) (groups : List (Option Str)) :
    Option (Str × List Str) :=
  if command_type == "create_dir".data then
    some ("mkdir".data, [normalize_path ((groupName groups "newfolder".data).getD [])])
  else if command_type == "create_file".data then
    some ("touch".data, [(groupName groups "newfile.txt".data).getD []])
  else if command_type == "list".data then
    some ("ls".data, [])
  else if command_type == "list_detailed".data then
    some ("ls".data, ["-l".data])
  else if command_type == "change_dir".data then
    some ("cd".data, [normalize_path ((groupName groups ['.']).getD [])])
  else if command_type == "go_home".data then
    some ("cd".data, [['~']])
  else if command_type == "go_back".data then
    some ("cd".data, ["..".data])
  else if command_type == "current_dir".data then
    some ("pwd".data, [])
  else if command_type == "remove_file".data then
    match pyTruthy (groupName groups []) with
    | some f => some ("rm".data, [f])
    | none => some ("rm".data, [])
  else if command_type == "remove_dir".data then
    match pyTruthy (groupName groups []) with
    | some d => some ("rm".data, ["-r".data, d])
    | none => some ("rm".data, ["-r".data])
  else if command_type == "copy".data then
    if 4 ≤ groups.length then
      some ("cp".data,
        [(pyOrStr ((groups.get? 1).join) ((groups.get? 0).join)).getD [],
         (pyOrStr ((groups.get? 3).join) ((groups.get? 2).join)).getD []])
    else none
  else if command_type == "move".data then
    if 4 ≤ groups.length then
      some ("mv".data,
        [(pyOrStr ((groups.get? 1).join) ((groups.get? 0).join)).getD [],
         (pyOrStr ((groups.get? 3).join) ((groups.get? 2).join)).getD []])
    else none
  else if command_type == "show_file".data then
    match pyTruthy (groupName groups []) with
    | some f => some ("cat".data, [f])
    | none => some ("cat".data, [])
  else if command_type == "find_file".data then
    some ("find".data, [(groupName groups ['*']).getD []])
  else if command_type == "system_info".data then
    some ("sysinfo".data, [])
  else if command_type == "processes".data then
    some ("ps".data, [])
  else if command_type == "memory".data then
    some ("free".data, [])
  else if command_type == "disk_space".data then
    some ("df".data, [])
  else if command_type == "clear_screen".data then
    some ("clear".data, [])
  else if command_type == "help".data then
    some ("help".data, [])
  else none

/-- The inner `for pattern in patterns` loop of `interpret`: first
pattern that matches AND yields a truthy command wins; a falsy command
(`if cmd:`) lets the loop continue. -/
def tryPatternList (query : Str) (ctype : Str) : List Str → Option (Str × List Str)
  | [] => none
  | p :: ps =>
    match parseRx p with
    | some (r, n) =>
      match re_search r query with
      | some caps =>
        match _process_match ctype (groupsOf n caps) with
        | some c => some c
        | none => tryPatternList query ctype ps
      | none => tryPatternList query ctype ps
    | none => tryPatternList query ctype ps

/-- The outer `for command_type, patterns in self.command_patterns.items()`
loop of `interpret`. -/
def tryCategories (query : Str) : List (Str × List Str) → Option (Str × List Str)
  | [] => none
  | (ct, ps) :: rest =>
    match tryPatternList query ct ps with
    | some c => some c
    | none => tryCategories query rest

/-- Python `str.split()`: split on whitespace runs, dropping empties. -/
def pySplitAux : Str → Str → List Str
  | [], acc => if acc.isEmpty then [] else [acc.reverse]
  | c :: r, acc =>
    if TerminalCore.pyIsSpace c then
      if acc.isEmpty then pySplitAux r [] else acc.reverse :: pySplitAux r []
    else pySplitAux r (c :: acc)

def pySplit (s : Str) : List Str := pySplitAux s []

/-- The word-heuristic fallback of `interpret` (lines 160-173): triggered
only when no pattern matched; picks the first word outside the stop list
and emits a single `mkdir`/`touch`, if any. -/
def fallback (words : List Str) : List (Str × List Str) :=
  if words.contains "create".data || words.contains "make".data then
    if words.contains "folder".data || words.contains "directory".data then
      match List.find? (fun w =>
          !(["create".data, "make".data, ['a'], "folder".data,
             "directory".data, "called".data, "named".data].contains w)) words with
      | some w => [("mkdir".data, [w])]
      | none => []
    else if words.contains "file".data then
      match List.find? (fun w =>
          !(["create".data, "make".data, ['a'], "file".data,
             "called".data, "named".data].contains w)) words with
      | some w => [("touch".data, [w])]
      | none => []
    else []
  else []

/-- `AICommandInterpreter.interpret`: strip; empty → `[]`; otherwise the
first pattern match wins and is returned alone; otherwise the word
heuristic. -/
def interpret (query : Str) : List (Str × List Str) :=
  if (TerminalCore.pyStrip query).isEmpty then []
  else
    match tryCategories (TerminalCore.pyStrip query) command_patterns with
    | some c => [c]
    | none =>
      fallback (pySplit (VirtualFileSystem.strLower (TerminalCore.pyStrip query)))

end AICommandInterpreter

namespace AICommandInterpreter

/-- **C1.** Evaluation of `interpret` on the claim's three queries.  For
`"go home"` and `"what is here"` the claim holds: exactly `("cd", ["~"])`
and `("ls", [])`.  For `"create a folder called projects"` the code
diverges from the claim: the first `create_dir` pattern matches with the
lazy `.*?` consuming nothing and the optional `(?:called|named)?` group
matching empty, so `(\w+)` captures the word `called` and the result is
`("mkdir", ["called"])`, not `("mkdir", ["projects"])`. -/
theorem c1_interpret_queries :
    interpret "create a folder called projects".data
      = [("mkdir".data, ["called".data])] ∧
    interpret "go home".data = [("cd".data, [['~']])] ∧
    interpret "what is here".data = [("ls".data, [])] := by
  refine ⟨by decide, by decide, by decide⟩

/-- **C8.** `interpret` returns at most one command for every query: the
pattern loop returns the list right after its single append, and each
fallback branch appends at most one command before `break`.  (The
embedding is total by construction, matching the code: every
`_process_match` branch returns and the name-capturing group of every
matched pattern is non-empty, so no `None` reaches `normalize_path`.) -/
theorem c8_interpret_at_most_one (query : Str) :
    (interpret query).length ≤ 1 := by
  have hf : ∀ ws, (fallback ws).length ≤ 1 := by
    intro ws
    unfold fallback
    repeat' split
    all_goals simp
  unfold interpret
  split
  · simp
  · split
    · simp
    · exact hf _

end AICommandInterpreter
